import Mathlib

/-!
Verification of the rayer-rs spectral path tracer against its specification.

Floating-point scalars (f32) are modelled as exact rationals; machine
constants such as f32::MAX are the exact rational values of the
corresponding floats.  Code that panics is modelled with Option (none =
panic).  All definitions are translated from the Rust sources under src/.
-/

/-- Exact value of f32::MAX = (2 - 2^-23) * 2^127 = (2^24 - 1) * 2^104,
used by the source as f32::max_value(); f32::min_value() is its negation. -/
def F32_MAX : ℚ := 340282346638528859811704183484516925440

/-- Smallest positive normal f32, 2^-126 (threshold of f32::is_normal). -/
def F32_MIN_POS_NORMAL : ℚ := 1 / 85070591730234615865843651857942052864

/-- Rust f32-to-integer cast (`as isize` / to_isize): truncation toward zero. -/
def ratTrunc (q : ℚ) : ℤ := if q < 0 then -(Int.floor (-q)) else Int.floor q

/-- Point3D/Vector3D over f32 (euclid), with exact rational coordinates. -/
structure Vec3 where
  x : ℚ
  y : ℚ
  z : ℚ
deriving DecidableEq

/-- Componentwise vector addition (euclid). -/
def Vec3.add (a b : Vec3) : Vec3 := ⟨a.x + b.x, a.y + b.y, a.z + b.z⟩

/-- Componentwise vector subtraction (euclid). -/
def Vec3.sub (a b : Vec3) : Vec3 := ⟨a.x - b.x, a.y - b.y, a.z - b.z⟩

/-- Vector scaled by an f32 (euclid). -/
def Vec3.smul (a : Vec3) (c : ℚ) : Vec3 := ⟨a.x * c, a.y * c, a.z * c⟩

/-- Dot product (euclid). -/
def Vec3.dot (a b : Vec3) : ℚ := a.x * b.x + a.y * b.y + a.z * b.z

/-- Cross product (euclid). -/
def Vec3.cross (a b : Vec3) : Vec3 :=
  ⟨a.y * b.z - a.z * b.y, a.z * b.x - a.x * b.z, a.x * b.y - a.y * b.x⟩

/-- Componentwise sign bits of a direction, ray.rs stores them as three bools. -/
structure BVec3 where
  x : Bool
  y : Bool
  z : Bool
deriving DecidableEq

/-- Ray (ray.rs): origin, direction, wavelength, precomputed componentwise
reciprocal of the direction and componentwise negativity of the direction. -/
structure Ray where
  origin : Vec3
  direction : Vec3
  wl : ℚ
  inv_direction : Vec3
  sign : BVec3
deriving DecidableEq

/-- Ray::new (ray.rs): precomputes inv_direction = recip of each component and
sign = (component < 0).  In f32, recip of 0 is infinite; the rational model
yields 0 there, so theorems about slab tests assume nonzero components. -/
def Ray.new (origin direction : Vec3) (wl : ℚ) : Ray :=
  ⟨origin, direction, wl,
   ⟨direction.x⁻¹, direction.y⁻¹, direction.z⁻¹⟩,
   ⟨decide (direction.x < 0), decide (direction.y < 0), decide (direction.z < 0)⟩⟩

/-- Ray::point_at_parameter: origin + direction * t. -/
def Ray.point_at_parameter (r : Ray) (t : ℚ) : Vec3 :=
  ⟨r.origin.x + r.direction.x * t, r.origin.y + r.direction.y * t,
   r.origin.z + r.direction.z * t⟩

/-- AABB (hitable/mod.rs): bounds[0] = lo, bounds[1] = hi. -/
structure AABB where
  lo : Vec3
  hi : Vec3
deriving DecidableEq

/-- Indexing bounds[s as usize] for a sign bit s: false picks bounds[0] = lo,
true picks bounds[1] = hi; bounds[1 - s as usize] is bnd (!s). -/
def AABB.bnd (b : AABB) (s : Bool) : Vec3 := if s then b.hi else b.lo

/-- Entry parameter of the x slab: (bounds[sign.x].x - origin.x) * inv_direction.x. -/
def nearX (b : AABB) (r : Ray) : ℚ := ((b.bnd r.sign.x).x - r.origin.x) * r.inv_direction.x

/-- Exit parameter of the x slab. -/
def farX (b : AABB) (r : Ray) : ℚ := ((b.bnd (!r.sign.x)).x - r.origin.x) * r.inv_direction.x

/-- Entry parameter of the y slab. -/
def nearY (b : AABB) (r : Ray) : ℚ := ((b.bnd r.sign.y).y - r.origin.y) * r.inv_direction.y

/-- Exit parameter of the y slab. -/
def farY (b : AABB) (r : Ray) : ℚ := ((b.bnd (!r.sign.y)).y - r.origin.y) * r.inv_direction.y

/-- Entry parameter of the z slab. -/
def nearZ (b : AABB) (r : Ray) : ℚ := ((b.bnd r.sign.z).z - r.origin.z) * r.inv_direction.z

/-- Exit parameter of the z slab. -/
def farZ (b : AABB) (r : Ray) : ℚ := ((b.bnd (!r.sign.z)).z - r.origin.z) * r.inv_direction.z

/-- AABB::intersects (hitable/mod.rs lines 28-62): branchless slab test with
early rejection, returning the reduced (tmin, tmax) when it meets (t0, t1).
Note: this function has no WIGGLE_FACTOR. -/
def AABB.intersects (b : AABB) (r : Ray) (t0 t1 : ℚ) : Option (ℚ × ℚ) :=
  let tmin := nearX b r
  let tmax := farX b r
  let tymin := nearY b r
  let tymax := farY b r
  if tmin > tymax ∨ tmax < tymin then none
  else
  let tmin := if tmin < tymin then tymin else tmin
  let tmax := if tymax < tmax then tymax else tmax
  let tzmin := nearZ b r
  let tzmax := farZ b r
  if tmin > tzmax ∨ tmax < tzmin then none
  else
  let tmin := if tmin < tzmin then tzmin else tmin
  let tmax := if tzmax < tmax then tzmax else tmax
  if tmin < t1 ∧ tmax > t0 then some (tmin, tmax) else none

/-- AABB::WIGGLE_FACTOR (hitable/mod.rs line 64). -/
def WIGGLE_FACTOR : ℚ := 1 / 10000

/-- AABB::intersects_2 (hitable/mod.rs lines 66-183): paired slab test for two
sibling boxes.  The SIMD lanes are the eight x/y products written out; each
box then merges its z slab.  Unlike intersects, it tolerates WIGGLE_FACTOR of
slab-interval emptiness and early-rejects against (t0, t1) before the z axis. -/
def AABB.intersects_2 (b second : AABB) (r : Ray) (t0 t1 : ℚ) :
    Option (ℚ × ℚ) × Option (ℚ × ℚ) :=
  let tmin_0 := if nearX b r < nearY b r then nearY b r else nearX b r
  let tmax_0 := if farY b r < farX b r then farY b r else farX b r
  let res_0 :=
    if tmin_0 > tmax_0 + WIGGLE_FACTOR ∨ tmin_0 > t1 ∨ tmax_0 < t0 then none
    else
    let tmin_0 := if tmin_0 < nearZ b r then nearZ b r else tmin_0
    let tmax_0 := if farZ b r < tmax_0 then farZ b r else tmax_0
    if tmin_0 < tmax_0 + WIGGLE_FACTOR ∧ tmin_0 < t1 ∧ tmax_0 > t0 then
      some (tmin_0, tmax_0)
    else none
  let tmin_1 := if nearX second r < nearY second r then nearY second r else nearX second r
  let tmax_1 := if farY second r < farX second r then farY second r else farX second r
  let res_1 :=
    if tmin_1 > tmax_1 + WIGGLE_FACTOR ∨ tmin_1 > t1 ∨ tmax_1 < t0 then none
    else
    let tmin_1 := if tmin_1 < nearZ second r then nearZ second r else tmin_1
    let tmax_1 := if farZ second r < tmax_1 then farZ second r else tmax_1
    if tmin_1 < tmax_1 + WIGGLE_FACTOR ∧ tmin_1 < t1 ∧ tmax_1 > t0 then
      some (tmin_1, tmax_1)
    else none
  (res_0, res_1)

/-- AABB::empty (hitable/mod.rs lines 185-192): low corner at f32::max_value(),
high corner at f32::min_value(). -/
def AABB.empty : AABB :=
  ⟨⟨F32_MAX, F32_MAX, F32_MAX⟩, ⟨-F32_MAX, -F32_MAX, -F32_MAX⟩⟩

/-- AABB::merge (hitable/mod.rs lines 202-218): componentwise choice of the
smaller low and the larger high corner. -/
def AABB.merge (b other : AABB) : AABB :=
  ⟨⟨if b.lo.x < other.lo.x then b.lo.x else other.lo.x,
    if b.lo.y < other.lo.y then b.lo.y else other.lo.y,
    if b.lo.z < other.lo.z then b.lo.z else other.lo.z⟩,
   ⟨if b.hi.x > other.hi.x then b.hi.x else other.hi.x,
    if b.hi.y > other.hi.y then b.hi.y else other.hi.y,
    if b.hi.z > other.hi.z then b.hi.z else other.hi.z⟩⟩

/-- Box whose corners are finite f32 values (excludes the infinities, which the
rational model cannot represent). -/
def AABB.finite (b : AABB) : Prop :=
  |b.lo.x| ≤ F32_MAX ∧ |b.lo.y| ≤ F32_MAX ∧ |b.lo.z| ≤ F32_MAX ∧
  |b.hi.x| ≤ F32_MAX ∧ |b.hi.y| ≤ F32_MAX ∧ |b.hi.z| ≤ F32_MAX

instance (b : AABB) : Decidable b.finite := by
  unfold AABB.finite; infer_instance

/-- Box invariant for non-empty boxes: low corner below high corner. -/
def AABB.wellFormed (b : AABB) : Prop :=
  b.lo.x ≤ b.hi.x ∧ b.lo.y ≤ b.hi.y ∧ b.lo.z ≤ b.hi.z

instance (b : AABB) : Decidable b.wellFormed := by
  unfold AABB.wellFormed; infer_instance

/-- Membership of a point in a box, componentwise. -/
def pointInBox (p : Vec3) (b : AABB) : Prop :=
  b.lo.x ≤ p.x ∧ p.x ≤ b.hi.x ∧ b.lo.y ≤ p.y ∧ p.y ≤ b.hi.y ∧
  b.lo.z ≤ p.z ∧ p.z ≤ b.hi.z

instance (p : Vec3) (b : AABB) : Decidable (pointInBox p b) := by
  unfold pointInBox; infer_instance

/-- ColorSpectrum10 (color/rgb_base_colors.rs): ten 34 nm bins from 380 nm. -/
abbrev Spectrum10 := Fin 10 → ℚ

/-- Elementwise AddAssign of binned spectra (color/binned_spectrum.rs). -/
def specAdd (a b : Spectrum10) : Spectrum10 := fun i => a i + b i

/-- Mul of a spectrum by an f32 scalar, elementwise (color/binned_spectrum.rs). -/
def specScale (c : ℚ) (s : Spectrum10) : Spectrum10 := fun i => s i * c

/-- WHITE_SPECTRUM of rgb_base_colors.rs. -/
def WHITE_SPECTRUM : Spectrum10 :=
  ![1.0000, 1.0000, 0.9999, 0.9993, 0.9992, 0.9998, 1.0000, 1.0000, 1.0000, 1.0000]

/-- CYAN_SPECTRUM of rgb_base_colors.rs. -/
def CYAN_SPECTRUM : Spectrum10 :=
  ![0.9710, 0.9426, 1.0007, 1.0007, 1.0007, 1.0007, 0.1564, 0.0000, 0.0000, 0.0000]

/-- MAGENTA_SPECTRUM of rgb_base_colors.rs. -/
def MAGENTA_SPECTRUM : Spectrum10 :=
  ![1.0000, 1.0000, 0.9685, 0.2229, 0.0000, 0.0458, 0.8369, 1.0000, 1.0000, 0.9959]

/-- YELLOW_SPECTRUM of rgb_base_colors.rs. -/
def YELLOW_SPECTRUM : Spectrum10 :=
  ![0.0001, 0.0000, 0.1088, 0.6651, 1.0000, 1.0000, 0.9996, 0.9586, 0.9685, 0.9840]

/-- RED_SPECTRUM of rgb_base_colors.rs; note the 1.0149 plateau in bins 7-9. -/
def RED_SPECTRUM : Spectrum10 :=
  ![0.1012, 0.0515, 0.0000, 0.0000, 0.0000, 0.0000, 0.8325, 1.0149, 1.0149, 1.0149]

/-- GREEN_SPECTRUM of rgb_base_colors.rs. -/
def GREEN_SPECTRUM : Spectrum10 :=
  ![0.0000, 0.0000, 0.0273, 0.7937, 1.0000, 0.9418, 0.1719, 0.0000, 0.0000, 0.0025]

/-- BLUE_SPECTRUM of rgb_base_colors.rs. -/
def BLUE_SPECTRUM : Spectrum10 :=
  ![1.0000, 1.0000, 0.8916, 0.3323, 0.0000, 0.0000, 0.0003, 0.0369, 0.0483, 0.0496]

/-- rgb_to_spectrum (color/rgb_base_colors.rs lines 107-141): Smits
decomposition keyed on the smallest RGB component. -/
def rgb_to_spectrum (red green blue : ℚ) : Spectrum10 :=
  let ret : Spectrum10 := fun _ => 0
  if red ≤ green ∧ red ≤ blue then
    let ret := specAdd ret (specScale red WHITE_SPECTRUM)
    if green ≤ blue then
      let ret := specAdd ret (specScale (green - red) CYAN_SPECTRUM)
      specAdd ret (specScale (blue - green) BLUE_SPECTRUM)
    else
      let ret := specAdd ret (specScale (blue - red) CYAN_SPECTRUM)
      specAdd ret (specScale (green - blue) GREEN_SPECTRUM)
  else if green ≤ red ∧ green ≤ blue then
    let ret := specAdd ret (specScale green WHITE_SPECTRUM)
    if red ≤ blue then
      let ret := specAdd ret (specScale (red - green) MAGENTA_SPECTRUM)
      specAdd ret (specScale (blue - red) BLUE_SPECTRUM)
    else
      let ret := specAdd ret (specScale (blue - green) MAGENTA_SPECTRUM)
      specAdd ret (specScale (red - blue) RED_SPECTRUM)
  else
    let ret := specAdd ret (specScale blue WHITE_SPECTRUM)
    if red ≤ green then
      let ret := specAdd ret (specScale (red - blue) YELLOW_SPECTRUM)
      specAdd ret (specScale (green - red) GREEN_SPECTRUM)
    else
      let ret := specAdd ret (specScale (green - blue) YELLOW_SPECTRUM)
      specAdd ret (specScale (red - green) RED_SPECTRUM)

/-- HasReflectance::reflect for BinnedSpectrum (color/binned_spectrum.rs lines
104-114) at Bin10 parameters WL_0 = 380, BIN_WIDTH = 34: clamped bin lookup.
The final index is in bounds by construction; the dead else branch mirrors
that the array access cannot fail. -/
def Spectrum10.reflect (s : Spectrum10) (wl : ℚ) : ℚ :=
  let index : ℤ := ratTrunc ((wl - 380) / 34)
  let index := if index < 0 then 0 else index
  let index := if index ≥ 10 then 9 else index
  if h : 0 ≤ index ∧ index < 10 then s ⟨index.toNat, by omega⟩ else 0

/-- C2 counterexample data: a box grazing-missed in x by less than
WIGGLE_FACTOR.  intersects rejects it outright, while intersects_2 accepts it
because only the latter adds WIGGLE_FACTOR before its rejection test. -/
def grazingBox : AABB := ⟨⟨1 + 1 / 16384, 0, 0⟩, ⟨2, 1, 1⟩⟩

/-- Unit box used as the sibling in the C2 counterexample. -/
def unitBox : AABB := ⟨⟨0, 0, 0⟩, ⟨1, 1, 1⟩⟩

/-- Diagonal ray used in the C2 counterexample. -/
def diagRay : Ray := Ray.new ⟨0, 0, 0⟩ ⟨1, 1, 1⟩ 500

/-- Component shape shared by the two halves of intersects_2 (see
intersects_2_eq); used to prove facts about both components at once. -/
def half2 (a : AABB) (r : Ray) (t0 t1 : ℚ) : Option (ℚ × ℚ) :=
  if max (nearX a r) (nearY a r) > min (farX a r) (farY a r) + WIGGLE_FACTOR ∨
      max (nearX a r) (nearY a r) > t1 ∨ min (farX a r) (farY a r) < t0 then none
  else if max (max (nearX a r) (nearY a r)) (nearZ a r) <
            min (min (farX a r) (farY a r)) (farZ a r) + WIGGLE_FACTOR ∧
          max (max (nearX a r) (nearY a r)) (nearZ a r) < t1 ∧
          min (min (farX a r) (farY a r)) (farZ a r) > t0 then
    some (max (max (nearX a r) (nearY a r)) (nearZ a r),
          min (min (farX a r) (farY a r)) (farZ a r))
  else none

/-- f32::is_normal in the rational model: a normal float has magnitude between
the smallest positive normal and f32::MAX.  (NaN and the infinities have no
rational counterpart; exact arithmetic on finite inputs never produces them,
overflow beyond f32::MAX is covered by the upper bound.) -/
def f32IsNormal (q : ℚ) : Prop := F32_MIN_POS_NORMAL ≤ |q| ∧ |q| ≤ F32_MAX

instance (q : ℚ) : Decidable (f32IsNormal q) := by
  unfold f32IsNormal; infer_instance

/-- Hit record produced by Triangle::hit (hitable/mod.rs HitRecord).  The
source normalizes the interpolated normal (a division by a Euclidean length,
irrational in general); the field stores the vector before normalization and
no theorem below depends on it.  The texture reference is omitted. -/
structure TriHit where
  t : ℚ
  p : Vec3
  uv : ℚ × ℚ
  normal_dir : Vec3
deriving DecidableEq

/-- Triangle (hitable/triangle.rs): vertices, per-vertex normals and UVs; the
texture handle is irrelevant to intersection and omitted. -/
structure Triangle where
  vert0 : Vec3
  vert1 : Vec3
  vert2 : Vec3
  normal0 : Vec3
  normal1 : Vec3
  normal2 : Vec3
  uv0 : ℚ × ℚ
  uv1 : ℚ × ℚ
  uv2 : ℚ × ℚ
deriving DecidableEq

/-- Triangle::hit (hitable/triangle.rs lines 74-113): Moeller-Trumbore with an
is_normal guard on the determinant and barycentric weights (v, u, w). -/
def Triangle.hit (tri : Triangle) (r : Ray) (t_min t_max : ℚ) : Option TriHit :=
  let edge1 := Vec3.sub tri.vert1 tri.vert0
  let edge2 := Vec3.sub tri.vert2 tri.vert0
  let pvec := Vec3.cross r.direction edge2
  let det := Vec3.dot edge1 pvec
  if ¬ f32IsNormal det then none
  else
  let inv_det := det⁻¹
  let tvec := Vec3.sub r.origin tri.vert0
  let u := Vec3.dot tvec pvec * inv_det
  if u < 0 ∨ u > 1 then none
  else
  let qvec := Vec3.cross tvec edge1
  let v := Vec3.dot r.direction qvec * inv_det
  if v < 0 ∨ v > 1 then none
  else
  let t := Vec3.dot edge2 qvec * inv_det
  if t ≤ t_min ∨ t ≥ t_max then none
  else
  let w := 1 - u - v
  if w < 0 ∨ w > 1 then none
  else
  some ⟨t, r.point_at_parameter t,
        ⟨tri.uv0.1 * v + tri.uv1.1 * u + tri.uv2.1 * w,
         tri.uv0.2 * v + tri.uv1.2 * u + tri.uv2.2 * w⟩,
        Vec3.add (Vec3.add (Vec3.smul tri.normal0 v) (Vec3.smul tri.normal1 u))
          (Vec3.smul tri.normal2 w)⟩

/-- Degenerate triangle (all vertices coincide) used as the C8 witness. -/
def degenTriangle : Triangle :=
  ⟨⟨0, 0, 0⟩, ⟨0, 0, 0⟩, ⟨0, 0, 0⟩, ⟨0, 1, 0⟩, ⟨0, 1, 0⟩, ⟨0, 1, 0⟩,
   (0, 0), (0, 0), (0, 0)⟩

/-- Metal (material/mod.rs): albedo reflectance and surface fuzz.  The albedo
is a HasReflectance payload, irrelevant to the fuzz invariant; it is kept as
its reflectance value. -/
structure Metal where
  albedo : ℚ
  fuzz : ℚ
deriving DecidableEq

/-- Metal::new (material/mod.rs lines 58-69): silently clamps fuzz to [0, 1]. -/
def Metal.new (albedo fuzz : ℚ) : Metal :=
  ⟨albedo,
   if fuzz < 0 then 0
   else if fuzz > 1 then 1
   else fuzz⟩

/-- ImageTexture::value (texture/mod.rs lines 38-53), index part: computes the
pixel coordinates fetched from a nx-by-ny image for texture coordinates
(u, v).  The source converts with to_isize (truncation), clamps with
.max(0).min(nx as isize) - note the inclusive upper bound nx - and then
indexes the image, which panics (modeled none) when the index reaches
width or height. -/
def ImageTexture.valueIdx (nx ny : Nat) (u v : ℚ) : Option (Nat × Nat) :=
  let i : ℤ := ratTrunc (u * nx)
  let j : ℤ := ratTrunc ((1 - v) * ny - 0.001)
  let i : ℤ := min (max i 0) nx
  let j : ℤ := min (max j 0) ny
  if i < nx ∧ j < ny then some (i.toNat, j.toNat) else none

/-- ScatterResult (material/mod.rs): emittance at the ray wavelength and an
optional (attenuation, scattered ray) pair. -/
structure ScatterResult where
  emittance : ℚ
  reflection : Option (ℚ × Ray)

/-- Loop of reflectance (main.rs lines 67-98) with the remaining iteration
count explicit.  The world hit (world.hit(r, sqrt(eps), f32::MAX), over an
abstract Hitable) and the material lookup-and-scatter
(rec.texture.value(rec.uv).scatter(r, rec), randomized) are oracles; the sky
reflectance (whose direction normalization is irrational) likewise.  Fuel 0 is
loop exhaustion: the accumulated res is returned. -/
def reflectanceGo {H : Type} (world : Ray → Option H)
    (scatter : Ray → H → ScatterResult) (render_sky : Bool)
    (skyRefl : Ray → ℚ) : Nat → Ray → ℚ → ℚ → ℚ
  | 0, _, res, _ => res
  | fuel + 1, r, res, att =>
    match world r with
    | some rec =>
      let mat_res := scatter r rec
      let res2 := res + mat_res.emittance * att
      match mat_res.reflection with
      | none => res2
      | some (attenuation, ray) =>
          reflectanceGo world scatter render_sky skyRefl fuel ray res2 (att * attenuation)
    | none => if render_sky then res + skyRefl r * att else res

/-- reflectance (main.rs lines 67-98): 50 loop iterations starting from
res = 0 and attenuation_acc = 1. -/
def reflectance {H : Type} (world : Ray → Option H)
    (scatter : Ray → H → ScatterResult) (render_sky : Bool)
    (skyRefl : Ray → ℚ) (r : Ray) : ℚ :=
  reflectanceGo world scatter render_sky skyRefl 50 r 0 1

/-- Single bounce of the integrator loop: either the next loop state
(ray, res, attenuation_acc) or the returned value. -/
def intStep {H : Type} (world : Ray → Option H)
    (scatter : Ray → H → ScatterResult) (render_sky : Bool)
    (skyRefl : Ray → ℚ) (s : Ray × ℚ × ℚ) : (Ray × ℚ × ℚ) ⊕ ℚ :=
  match world s.1 with
  | some rec =>
    let mat_res := scatter s.1 rec
    let res2 := s.2.1 + mat_res.emittance * s.2.2
    match mat_res.reflection with
    | none => Sum.inr res2
    | some (attenuation, ray) => Sum.inl (ray, res2, s.2.2 * attenuation)
  | none => Sum.inr (if render_sky then s.2.1 + skyRefl s.1 * s.2.2 else s.2.1)

/-- Iterated bounces: inl is the state still in flight, inr a returned value. -/
def iterSteps {H : Type} (world : Ray → Option H)
    (scatter : Ray → H → ScatterResult) (render_sky : Bool)
    (skyRefl : Ray → ℚ) : Nat → Ray × ℚ × ℚ → (Ray × ℚ × ℚ) ⊕ ℚ
  | 0, s => Sum.inl s
  | n + 1, s =>
    match intStep world scatter render_sky skyRefl s with
    | Sum.inl s2 => iterSteps world scatter render_sky skyRefl n s2
    | Sum.inr v => Sum.inr v

/-- HitRecord as the BVH traversal observes it: the hit parameter t and an
identifier standing for the record payload (hit point, normal, uv, texture). -/
structure HitRecord where
  t : ℚ
  id : Nat
deriving DecidableEq

/-- Abstract primitive behind the BVH (a Hitable trait object in the source:
sphere, triangle, mesh, ...): its bounding box and, for the one ray a theorem
quantifies over, the finite list of intersection parameters it can report.
Sphere::hit tries the nearer quadratic root first and falls back to the
farther one, Triangle::hit has a single candidate, so every primitive returns
the record with the smallest candidate t inside the open interval
(t_min, t_max); that contract is the model's hit function. -/
structure Prim where
  bbox : AABB
  cands : List HitRecord
deriving DecidableEq

/-- Closest candidate inside the open interval (t0, t1). -/
def selectMinHit : List HitRecord → ℚ → ℚ → Option HitRecord
  | [], _, _ => none
  | c :: cs, t0, t1 =>
    match selectMinHit cs t0 t1 with
    | none => if t0 < c.t ∧ c.t < t1 then some c else none
    | some b => if t0 < c.t ∧ c.t < t1 ∧ c.t < b.t then some c else some b

/-- Hitable::hit of an abstract primitive (see Prim). -/
def Prim.hit (p : Prim) (_r : Ray) (t_min t_max : ℚ) : Option HitRecord :=
  selectMinHit p.cands t_min t_max

/-- Hitable::centroid (hitable/mod.rs lines 222-233): bbox midpoint. -/
def Prim.centroid (p : Prim) : Vec3 :=
  ⟨(p.bbox.lo.x + p.bbox.hi.x) * 0.5, (p.bbox.lo.y + p.bbox.hi.y) * 0.5,
   (p.bbox.lo.z + p.bbox.hi.z) * 0.5⟩

/-- Node (hitable/bvh.rs lines 11-21). -/
inductive Node where
  | Bin (left_length : Nat) (bb : AABB)
  | Tip (hitable : Prim) (bb : AABB)
  | Empty
deriving DecidableEq

/-- Node::bbox (hitable/bvh.rs lines 23-31). -/
def Node.bbox : Node → AABB
  | .Empty => AABB.empty
  | .Bin _ bb => bb
  | .Tip _ bb => bb

/-- BVH (hitable/bvh.rs): flat preorder node array. -/
structure BVH where
  nodes : List Node
deriving DecidableEq

/-- Axis (local enum of BVH::initialize). -/
inductive Axis where
  | X
  | Y
  | Z
deriving DecidableEq

/-- Model of pdqselect::select_by(items, split, cmp) in BVH::initialize: the
real routine reorders the slice so that items[split] is the element of that
rank, everything before compares at most equal and everything after at least
equal (the nth_element contract); which permutation of the slice results is
unspecified.  Stable sorting by the same key is one reordering satisfying the
contract, and every theorem below depends only on the multiset of items, so
the choice is immaterial. -/
def selectByKey (key : Vec3 × Prim → ℚ) (l : List (Vec3 × Prim)) :
    List (Vec3 × Prim) :=
  l.insertionSort (fun a b => key a ≤ key b)

/-- Axis selection of BVH::initialize (hitable/bvh.rs lines 53-77): centroid
extents per axis from f32::max_value()/min_value() seeds, widest axis wins,
ties resolved x over y over z. -/
def chooseAxis (items : List (Vec3 × Prim)) : Axis :=
  let min_x := items.foldl (fun acc it => min acc it.1.x) F32_MAX
  let min_y := items.foldl (fun acc it => min acc it.1.y) F32_MAX
  let min_z := items.foldl (fun acc it => min acc it.1.z) F32_MAX
  let max_x := items.foldl (fun acc it => max acc it.1.x) (-F32_MAX)
  let max_y := items.foldl (fun acc it => max acc it.1.y) (-F32_MAX)
  let max_z := items.foldl (fun acc it => max acc it.1.z) (-F32_MAX)
  let width_x := max_x - min_x
  let width_y := max_y - min_y
  let width_z := max_z - min_z
  if width_z > max width_x width_y then Axis.Z
  else if width_y > width_x then Axis.Y
  else Axis.X

/-- Partition step of BVH::initialize (hitable/bvh.rs lines 79-92): the
select_by reorder keyed on the chosen axis. -/
def sortByWidestAxis (items : List (Vec3 × Prim)) : List (Vec3 × Prim) :=
  match chooseAxis items with
  | Axis.X => selectByKey (fun a => a.1.x) items
  | Axis.Y => selectByKey (fun a => a.1.y) items
  | Axis.Z => selectByKey (fun a => a.1.z) items

/-- Recursive builder go of BVH::initialize (hitable/bvh.rs lines 39-102),
with the push-then-backfill on the output vector turned into list
concatenation: the Bin slot reserved at the current position is the head of
the subtree block, which is exactly the preorder layout the source builds.
The fuel argument bounds the recursion depth; the slice shrinks at every
recursive call, so with fuel at least the slice length the fuel-exhausted
branch is never taken. -/
def buildGo : Nat → List (Vec3 × Prim) → AABB × Nat × List Node
  | _, [] => (AABB.empty, 0, [])
  | _, [item] => (item.2.bbox, 1, [Node.Tip item.2 item.2.bbox])
  | 0, _ => (AABB.empty, 0, [])
  | fuel + 1, items@(_ :: _ :: _) =>
    let split_location := items.length / 2
    let sorted := sortByWidestAxis items
    let left_items := sorted.take split_location
    let right_items := sorted.drop split_location
    let lres := buildGo fuel left_items
    let rres := buildGo fuel right_items
    let bbox := lres.1.merge rres.1
    (bbox, 1 + lres.2.1 + rres.2.1, Node.Bin lres.2.1 bbox :: (lres.2.2 ++ rres.2.2))

/-- Checked usize subtraction: in Rust, a - b on usize panics in debug builds
when b > a, and in release builds wraps to a huge value whose use as a vector
capacity aborts; both failure modes are modeled as none. -/
def usizeSub (a b : Nat) : Option Nat := if b ≤ a then some (a - b) else none

/-- BVH::initialize (hitable/bvh.rs lines 34-107): pairs every item with its
centroid, computes the capacity items.len()*2 - 1 (the usize expression that
underflows on an empty slice) and runs the recursive builder. -/
def BVH.initialize (items : List Prim) : Option BVH :=
  match usizeSub (items.length * 2) 1 with
  | none => none
  | some _capacity =>
    let pairs := items.map (fun x => (x.centroid, x))
    some ⟨(buildGo pairs.length pairs).2.2⟩

/-- Traversal go of BVH::hit (hitable/bvh.rs lines 121-176).  Slices become
list suffixes: left is the tail and right drops left_length further nodes.
The source reads left[0] and right[0], which exist on every well-formed tree;
headD Node.Empty stands for that indexing (never reached below).  The mutable
closest_match/closest_so_far pair becomes the match cascade: after the first
child, closest_so_far is t_max on a miss and hit.t on a hit.  Fuel bounds the
recursion depth as in buildGo. -/
def hitGo : Nat → List Node → Ray → ℚ → ℚ → Option HitRecord
  | 0, _, _, _, _ => none
  | _ + 1, [], _, _, _ => none
  | fuel + 1, Node.Bin left_length _ :: left, r, t_min, t_max =>
    let right := left.drop left_length
    let left_hit := ((left.headD Node.Empty).bbox).intersects r t_min t_max
    let right_hit := ((right.headD Node.Empty).bbox).intersects r t_min t_max
    match left_hit, right_hit with
    | none, none => none
    | some _, none => hitGo fuel left r t_min t_max
    | none, some _ => hitGo fuel right r t_min t_max
    | some left_range, some right_range =>
      let first := if left_range.1 < right_range.1 then left else right
      let second := if left_range.1 < right_range.1 then right else left
      let second_range :=
        if left_range.1 < right_range.1 then right_range else left_range
      match hitGo fuel first r t_min t_max with
      | none =>
        if t_max < second_range.1 then none
        else hitGo fuel second r t_min t_max
      | some hit1 =>
        if hit1.t < second_range.1 then some hit1
        else
          match hitGo fuel second r t_min hit1.t with
          | none => some hit1
          | some hit2 => some hit2
  | _ + 1, Node.Tip hitable _ :: _, r, t_min, t_max => hitable.hit r t_min t_max
  | _ + 1, Node.Empty :: _, _, _, _ => none

/-- BVH::hit (hitable/bvh.rs impl Hitable): the traversal on the node array.
Fuel nodes.length suffices: every recursive call drops at least the head. -/
def BVH.hit (b : BVH) (r : Ray) (t_min t_max : ℚ) : Option HitRecord :=
  hitGo b.nodes.length b.nodes r t_min t_max

/-- HitableList::hit loop (hitable/hitable_list.rs lines 27-40): fold with the
shrinking closest_so_far. -/
def hitableListGo (l : List Prim) (r : Ray) (t_min : ℚ)
    (closest_match : Option HitRecord) (closest_so_far : ℚ) : Option HitRecord :=
  match l with
  | [] => closest_match
  | obj :: rest =>
    match obj.hit r t_min closest_so_far with
    | none => hitableListGo rest r t_min closest_match closest_so_far
    | some hit => hitableListGo rest r t_min (some hit) hit.t

/-- HitableList::hit (hitable/hitable_list.rs): the linear reference scan. -/
def HitableList.hit (l : List Prim) (r : Ray) (t_min t_max : ℚ) :
    Option HitRecord :=
  hitableListGo l r t_min none t_max

/-- Binary-tree view of the flat preorder node array; proof infrastructure. -/
inductive PTree where
  | tip (p : Prim)
  | bin (l r : PTree)

/-- Node count of a subtree. -/
def PTree.size : PTree → Nat
  | .tip _ => 1
  | .bin l r => 1 + l.size + r.size

/-- Bounding box of a subtree (merge of everything below). -/
def PTree.bboxOf : PTree → AABB
  | .tip p => p.bbox
  | .bin l r => l.bboxOf.merge r.bboxOf

/-- Primitives of a subtree in preorder. -/
def PTree.prims : PTree → List Prim
  | .tip p => [p]
  | .bin l r => l.prims ++ r.prims

/-- Preorder flattening; the layout buildGo produces. -/
def PTree.flatten : PTree → List Node
  | .tip p => [Node.Tip p p.bbox]
  | .bin l r =>
    Node.Bin l.size (l.bboxOf.merge r.bboxOf) :: (l.flatten ++ r.flatten)

/-- Traversal on the tree view, mirroring hitGo with both sibling orders
written out. -/
def treeHit : PTree → Ray → ℚ → ℚ → Option HitRecord
  | .tip p, r, t0, t1 => p.hit r t0 t1
  | .bin lt rt, r, t0, t1 =>
    match lt.bboxOf.intersects r t0 t1, rt.bboxOf.intersects r t0 t1 with
    | none, none => none
    | some _, none => treeHit lt r t0 t1
    | none, some _ => treeHit rt r t0 t1
    | some lr, some rr =>
      if lr.1 < rr.1 then
        match treeHit lt r t0 t1 with
        | none => if t1 < rr.1 then none else treeHit rt r t0 t1
        | some h1 =>
          if h1.t < rr.1 then some h1
          else
            match treeHit rt r t0 h1.t with
            | none => some h1
            | some h2 => some h2
      else
        match treeHit rt r t0 t1 with
        | none => if t1 < lr.1 then none else treeHit lt r t0 t1
        | some h1 =>
          if h1.t < lr.1 then some h1
          else
            match treeHit lt r t0 h1.t with
            | none => some h1
            | some h2 => some h2

/-- Candidate parameter inside the open interval. -/
def candIn (t0 t1 : ℚ) (c : HitRecord) : Prop := t0 < c.t ∧ c.t < t1

/-- No primitive of the list has a candidate inside the interval. -/
def NoCand (ps : List Prim) (t0 t1 : ℚ) : Prop :=
  ∀ p ∈ ps, ∀ c ∈ p.cands, ¬ candIn t0 t1 c

/-- Specification of a closest-hit query over a list of primitives: none means
no candidate lies in the open interval; some h means h is a candidate in the
interval of minimal parameter. -/
def HitSpec (ps : List Prim) (t0 t1 : ℚ) : Option HitRecord → Prop
  | none => NoCand ps t0 t1
  | some h => candIn t0 t1 h ∧ (∃ p ∈ ps, h ∈ p.cands) ∧
      ∀ p ∈ ps, ∀ c ∈ p.cands, candIn t0 t1 c → h.t ≤ c.t

/-- Every candidate point of every primitive lies inside that primitive's
bounding box (along the fixed ray). -/
def CandsInBoxes (ps : List Prim) (r : Ray) : Prop :=
  ∀ p ∈ ps, ∀ c ∈ p.cands, pointInBox (r.point_at_parameter c.t) p.bbox

/-- Ray fields are consistent with Ray::new: nonzero direction components and
the precomputed reciprocal and sign fields. -/
def Ray.wf (r : Ray) : Prop :=
  r.direction.x ≠ 0 ∧ r.direction.y ≠ 0 ∧ r.direction.z ≠ 0 ∧
  r.inv_direction = ⟨r.direction.x⁻¹, r.direction.y⁻¹, r.direction.z⁻¹⟩ ∧
  r.sign = ⟨decide (r.direction.x < 0), decide (r.direction.y < 0),
            decide (r.direction.z < 0)⟩

/-- Primitive used by the C1 and C5 witnesses: unit box, one hit at t = 1/2. -/
def witnessPrimA : Prim := ⟨⟨⟨0, 0, 0⟩, ⟨1, 1, 1⟩⟩, [⟨1/2, 0⟩]⟩

/-- Second witness primitive: box [2,3]^3, one hit at t = 5/2. -/
def witnessPrimB : Prim := ⟨⟨⟨2, 2, 2⟩, ⟨3, 3, 3⟩⟩, [⟨5/2, 1⟩]⟩

/-- Running maximum written as the source writes it. -/
theorem ite_max (a b : ℚ) : (if a < b then b else a) = max a b := by
  rcases le_or_lt b a with h | h
  · simp [max_eq_left h, not_lt.2 h]
  · simp [max_eq_right h.le, h]

/-- Running minimum written as the source writes it. -/
theorem ite_min (a b : ℚ) : (if b < a then b else a) = min a b := by
  rcases le_or_lt a b with h | h
  · simp [min_eq_left h, not_lt.2 h]
  · simp [min_eq_right h.le, h]

/-- Closed form of AABB::intersects in terms of per-axis slab parameters. -/
theorem intersects_eq (b : AABB) (r : Ray) (t0 t1 : ℚ) :
    b.intersects r t0 t1 =
      if nearX b r > farY b r ∨ farX b r < nearY b r then none
      else if max (nearX b r) (nearY b r) > farZ b r ∨
              min (farX b r) (farY b r) < nearZ b r then none
      else if max (max (nearX b r) (nearY b r)) (nearZ b r) < t1 ∧
              min (min (farX b r) (farY b r)) (farZ b r) > t0 then
        some (max (max (nearX b r) (nearY b r)) (nearZ b r),
              min (min (farX b r) (farY b r)) (farZ b r))
      else none := by
  unfold AABB.intersects
  simp only [ite_max, ite_min]

/-- Closed form of the two components of AABB::intersects_2. -/
theorem intersects_2_eq (b c : AABB) (r : Ray) (t0 t1 : ℚ) :
    b.intersects_2 c r t0 t1 =
      ((if max (nearX b r) (nearY b r) > min (farX b r) (farY b r) + WIGGLE_FACTOR ∨
           max (nearX b r) (nearY b r) > t1 ∨ min (farX b r) (farY b r) < t0 then none
        else if max (max (nearX b r) (nearY b r)) (nearZ b r) <
                  min (min (farX b r) (farY b r)) (farZ b r) + WIGGLE_FACTOR ∧
                max (max (nearX b r) (nearY b r)) (nearZ b r) < t1 ∧
                min (min (farX b r) (farY b r)) (farZ b r) > t0 then
          some (max (max (nearX b r) (nearY b r)) (nearZ b r),
                min (min (farX b r) (farY b r)) (farZ b r))
        else none),
       (if max (nearX c r) (nearY c r) > min (farX c r) (farY c r) + WIGGLE_FACTOR ∨
           max (nearX c r) (nearY c r) > t1 ∨ min (farX c r) (farY c r) < t0 then none
        else if max (max (nearX c r) (nearY c r)) (nearZ c r) <
                  min (min (farX c r) (farY c r)) (farZ c r) + WIGGLE_FACTOR ∧
                max (max (nearX c r) (nearY c r)) (nearZ c r) < t1 ∧
                min (min (farX c r) (farY c r)) (farZ c r) > t0 then
          some (max (max (nearX c r) (nearY c r)) (nearZ c r),
                min (min (farX c r) (farY c r)) (farZ c r))
        else none)) := by
  unfold AABB.intersects_2
  simp only [ite_max, ite_min]

/-- Each axis slab of a well-formed box is a nonempty parameter interval when
the ray was built by Ray::new. -/
theorem slab_wf_x (b : AABB) (o d : Vec3) (wl : ℚ) (h : b.lo.x ≤ b.hi.x) :
    nearX b (Ray.new o d wl) ≤ farX b (Ray.new o d wl) := by
  unfold nearX farX Ray.new AABB.bnd
  simp only [Bool.not_eq_true', decide_eq_true_eq, decide_eq_false_iff_not]
  rcases lt_trichotomy d.x 0 with hd | hd | hd
  · rw [if_pos hd, if_neg (not_not_intro hd)]
    have hinv : d.x⁻¹ < 0 := by
      have h1 : (0:ℚ) < (-d.x)⁻¹ := inv_pos.2 (by linarith)
      rw [inv_neg] at h1; linarith
    exact mul_le_mul_of_nonpos_right (by linarith) (le_of_lt hinv)
  · simp [hd]
  · have hnd : ¬ d.x < 0 := by linarith
    rw [if_neg hnd, if_pos hnd]
    have hinv : 0 < d.x⁻¹ := inv_pos.2 hd
    exact mul_le_mul_of_nonneg_right (by linarith) (le_of_lt hinv)

/-- Y-axis version of slab_wf_x. -/
theorem slab_wf_y (b : AABB) (o d : Vec3) (wl : ℚ) (h : b.lo.y ≤ b.hi.y) :
    nearY b (Ray.new o d wl) ≤ farY b (Ray.new o d wl) := by
  unfold nearY farY Ray.new AABB.bnd
  simp only [Bool.not_eq_true', decide_eq_true_eq, decide_eq_false_iff_not]
  rcases lt_trichotomy d.y 0 with hd | hd | hd
  · rw [if_pos hd, if_neg (not_not_intro hd)]
    have hinv : d.y⁻¹ < 0 := by
      have h1 : (0:ℚ) < (-d.y)⁻¹ := inv_pos.2 (by linarith)
      rw [inv_neg] at h1; linarith
    exact mul_le_mul_of_nonpos_right (by linarith) (le_of_lt hinv)
  · simp [hd]
  · have hnd : ¬ d.y < 0 := by linarith
    rw [if_neg hnd, if_pos hnd]
    have hinv : 0 < d.y⁻¹ := inv_pos.2 hd
    exact mul_le_mul_of_nonneg_right (by linarith) (le_of_lt hinv)

/-- Z-axis version of slab_wf_x. -/
theorem slab_wf_z (b : AABB) (o d : Vec3) (wl : ℚ) (h : b.lo.z ≤ b.hi.z) :
    nearZ b (Ray.new o d wl) ≤ farZ b (Ray.new o d wl) := by
  unfold nearZ farZ Ray.new AABB.bnd
  simp only [Bool.not_eq_true', decide_eq_true_eq, decide_eq_false_iff_not]
  rcases lt_trichotomy d.z 0 with hd | hd | hd
  · rw [if_pos hd, if_neg (not_not_intro hd)]
    have hinv : d.z⁻¹ < 0 := by
      have h1 : (0:ℚ) < (-d.z)⁻¹ := inv_pos.2 (by linarith)
      rw [inv_neg] at h1; linarith
    exact mul_le_mul_of_nonpos_right (by linarith) (le_of_lt hinv)
  · simp [hd]
  · have hnd : ¬ d.z < 0 := by linarith
    rw [if_neg hnd, if_pos hnd]
    have hinv : 0 < d.z⁻¹ := inv_pos.2 hd
    exact mul_le_mul_of_nonneg_right (by linarith) (le_of_lt hinv)

/-- C4: AABB::empty() is an identity of merge on both sides, for every box with
finite f32 coordinates. -/
theorem empty_merge_identity (b : AABB) (hb : b.finite) :
    AABB.empty.merge b = b ∧ b.merge AABB.empty = b := by
  obtain ⟨h1, h2, h3, h4, h5, h6⟩ := hb
  rw [abs_le] at h1 h2 h3 h4 h5 h6
  obtain ⟨⟨lx, ly, lz⟩, ⟨hx, hy, hz⟩⟩ := b
  simp only at h1 h2 h3 h4 h5 h6
  simp only [AABB.merge, AABB.empty, AABB.mk.injEq, Vec3.mk.injEq]
  refine ⟨⟨⟨?_, ?_, ?_⟩, ?_, ?_, ?_⟩, ⟨?_, ?_, ?_⟩, ?_, ?_, ?_⟩ <;>
    split_ifs <;>
    linarith [h1.1, h1.2, h2.1, h2.2, h3.1, h3.2, h4.1, h4.2, h5.1, h5.2, h6.1, h6.2]

/-- C4 witness: the unit cube is finite and absorbed by the empty box. -/
theorem empty_merge_identity_witness :
    (AABB.mk ⟨0, 0, 0⟩ ⟨1, 1, 1⟩).finite ∧
      (AABB.empty.merge (AABB.mk ⟨0, 0, 0⟩ ⟨1, 1, 1⟩) = AABB.mk ⟨0, 0, 0⟩ ⟨1, 1, 1⟩ ∧
       (AABB.mk ⟨0, 0, 0⟩ ⟨1, 1, 1⟩).merge AABB.empty = AABB.mk ⟨0, 0, 0⟩ ⟨1, 1, 1⟩) :=
  ⟨by norm_num [AABB.finite, F32_MAX],
   empty_merge_identity (AABB.mk ⟨0, 0, 0⟩ ⟨1, 1, 1⟩)
     (by norm_num [AABB.finite, F32_MAX])⟩

/-- C2 counterexample: intersects_2 is not pointwise equal to the pair of
intersects results; on grazingBox the left component disagrees. -/
theorem intersects_2_ne_pair :
    grazingBox.intersects_2 unitBox diagRay (1 / 10000) 100 ≠
      (grazingBox.intersects diagRay (1 / 10000) 100,
       unitBox.intersects diagRay (1 / 10000) 100) := by
  rw [intersects_2_eq, intersects_eq, intersects_eq]
  norm_num [nearX, nearY, nearZ, farX, farY, farZ, AABB.bnd, Ray.new,
    grazingBox, unitBox, diagRay, WIGGLE_FACTOR]
  simp

/-- Both components of intersects_2 are instances of half2. -/
theorem intersects_2_halves (a b : AABB) (r : Ray) (t0 t1 : ℚ) :
    a.intersects_2 b r t0 t1 = (half2 a r t0 t1, half2 b r t0 t1) := by
  rw [intersects_2_eq]; rfl

/-- Arithmetic core of the C2 comparison: with nonempty per-axis slabs, the
half2 acceptance test accepts whatever the intersects test accepts, with the
same value. -/
theorem half2_shape (nx ny nz fx fy fz t0 t1 : ℚ) (v : ℚ × ℚ)
    (wx : nx ≤ fx) (wy : ny ≤ fy) (wz : nz ≤ fz)
    (h : (if nx > fy ∨ fx < ny then none
          else if max nx ny > fz ∨ min fx fy < nz then none
          else if max (max nx ny) nz < t1 ∧ min (min fx fy) fz > t0 then
            some (max (max nx ny) nz, min (min fx fy) fz)
          else none) = some v) :
    (if max nx ny > min fx fy + WIGGLE_FACTOR ∨ max nx ny > t1 ∨ min fx fy < t0 then
       none
     else if max (max nx ny) nz < min (min fx fy) fz + WIGGLE_FACTOR ∧
             max (max nx ny) nz < t1 ∧ min (min fx fy) fz > t0 then
       some (max (max nx ny) nz, min (min fx fy) fz)
     else none) = some v := by
  have hW : (0:ℚ) < WIGGLE_FACTOR := by norm_num [WIGGLE_FACTOR]
  split_ifs at h with h1 h2 h3
  push_neg at h1 h2
  obtain ⟨h1a, h1b⟩ := h1
  obtain ⟨h2a, h2b⟩ := h2
  obtain ⟨h3a, h3b⟩ := h3
  have hxy_le : max nx ny ≤ min fx fy := max_le (le_min wx h1a) (le_min h1b wy)
  have hz_le : max (max nx ny) nz ≤ min (min fx fy) fz :=
    max_le (le_min hxy_le h2a) (le_min h2b wz)
  rw [if_neg, if_pos]
  · exact h
  · exact ⟨by linarith, h3a, h3b⟩
  · push_neg
    refine ⟨by linarith, ?_, ?_⟩
    · exact le_trans (le_max_left _ _) (le_of_lt h3a)
    · exact le_trans (le_of_lt h3b) (min_le_left _ _)

/-- Whenever intersects hits a well-formed box, half2 returns the same value. -/
theorem half2_of_intersects_some (a : AABB) (o d : Vec3) (wl t0 t1 : ℚ)
    (ha : a.wellFormed) (v : ℚ × ℚ)
    (hv : a.intersects (Ray.new o d wl) t0 t1 = some v) :
    half2 a (Ray.new o d wl) t0 t1 = some v := by
  rw [intersects_eq] at hv
  unfold half2
  exact half2_shape _ _ _ _ _ _ t0 t1 v (slab_wf_x a o d wl ha.1)
    (slab_wf_y a o d wl ha.2.1) (slab_wf_z a o d wl ha.2.2) hv

/-- C2 amended: for well-formed boxes, intersects_2 agrees with the pair of
intersects results whenever intersects reports a hit; the two can differ only
in that intersects_2 additionally accepts near-misses within WIGGLE_FACTOR
(see intersects_2_ne_pair), because only intersects_2 applies the wiggle. -/
theorem intersects_2_agrees_on_hits (a b : AABB) (o d : Vec3) (wl t0 t1 : ℚ)
    (ha : a.wellFormed) (hb : b.wellFormed) :
    (∀ v, a.intersects (Ray.new o d wl) t0 t1 = some v →
       (a.intersects_2 b (Ray.new o d wl) t0 t1).1 = some v) ∧
    (∀ v, b.intersects (Ray.new o d wl) t0 t1 = some v →
       (a.intersects_2 b (Ray.new o d wl) t0 t1).2 = some v) := by
  rw [intersects_2_halves]
  exact ⟨fun v hv => half2_of_intersects_some a o d wl t0 t1 ha v hv,
         fun v hv => half2_of_intersects_some b o d wl t0 t1 hb v hv⟩

/-- C2 witness: on the unit box hit by the diagonal ray both agree. -/
theorem intersects_2_agrees_on_hits_witness :
    unitBox.wellFormed ∧
      ((unitBox.intersects_2 unitBox diagRay (1 / 10000) 100).1 = some (0, 1) ∧
       (unitBox.intersects_2 unitBox diagRay (1 / 10000) 100).2 = some (0, 1)) := by
  have hwf : unitBox.wellFormed := by norm_num [AABB.wellFormed, unitBox]
  have hhit : unitBox.intersects diagRay (1 / 10000) 100 = some (0, 1) := by
    rw [intersects_eq]
    norm_num [nearX, nearY, nearZ, farX, farY, farZ, AABB.bnd, Ray.new,
      unitBox, diagRay]
  have h := intersects_2_agrees_on_hits unitBox unitBox ⟨0, 0, 0⟩ ⟨1, 1, 1⟩ 500
    (1 / 10000) 100 hwf hwf
  exact ⟨hwf, h.1 (0, 1) hhit, h.2 (0, 1) hhit⟩

/-- Bounds of the white reference spectrum. -/
theorem white_bounds (i : Fin 10) :
    (9992/10000 : ℚ) ≤ WHITE_SPECTRUM i ∧ WHITE_SPECTRUM i ≤ 1 := by
  fin_cases i <;> norm_num [WHITE_SPECTRUM]

/-- Bounds of the cyan reference spectrum. -/
theorem cyan_bounds (i : Fin 10) :
    (0 : ℚ) ≤ CYAN_SPECTRUM i ∧ CYAN_SPECTRUM i ≤ 10149/10000 := by
  fin_cases i <;> norm_num [CYAN_SPECTRUM]

/-- Bounds of the magenta reference spectrum. -/
theorem magenta_bounds (i : Fin 10) :
    (0 : ℚ) ≤ MAGENTA_SPECTRUM i ∧ MAGENTA_SPECTRUM i ≤ 10149/10000 := by
  fin_cases i <;> norm_num [MAGENTA_SPECTRUM]

/-- Bounds of the yellow reference spectrum. -/
theorem yellow_bounds (i : Fin 10) :
    (0 : ℚ) ≤ YELLOW_SPECTRUM i ∧ YELLOW_SPECTRUM i ≤ 10149/10000 := by
  fin_cases i <;> norm_num [YELLOW_SPECTRUM]

/-- Bounds of the red reference spectrum; the maximum 1.0149 is attained. -/
theorem red_bounds (i : Fin 10) :
    (0 : ℚ) ≤ RED_SPECTRUM i ∧ RED_SPECTRUM i ≤ 10149/10000 := by
  fin_cases i <;> norm_num [RED_SPECTRUM]

/-- Bounds of the green reference spectrum. -/
theorem green_bounds (i : Fin 10) :
    (0 : ℚ) ≤ GREEN_SPECTRUM i ∧ GREEN_SPECTRUM i ≤ 10149/10000 := by
  fin_cases i <;> norm_num [GREEN_SPECTRUM]

/-- Bounds of the blue reference spectrum. -/
theorem blue_bounds (i : Fin 10) :
    (0 : ℚ) ≤ BLUE_SPECTRUM i ∧ BLUE_SPECTRUM i ≤ 10149/10000 := by
  fin_cases i <;> norm_num [BLUE_SPECTRUM]

/-- Bound for one bin of the Smits decomposition: white weighted by the
minimum plus a secondary and a pure-color correction. -/
theorem smits_bin_bound (w c1 c2 mn md mx : ℚ)
    (hw : 9992/10000 ≤ w) (hw1 : w ≤ 1)
    (hc10 : 0 ≤ c1) (hc11 : c1 ≤ 10149/10000)
    (hc20 : 0 ≤ c2) (hc21 : c2 ≤ 10149/10000)
    (h0 : 0 ≤ mn) (h1 : mn ≤ md) (h2 : md ≤ mx) (h3 : mx ≤ 1) :
    mn - 1/100 ≤ w * mn + c1 * (md - mn) + c2 * (mx - md) ∧
    w * mn + c1 * (md - mn) + c2 * (mx - md) ≤ mx + 15/1000 := by
  have u1 : w * mn ≤ mn := by nlinarith
  have u2 : c1 * (md - mn) ≤ (10149/10000) * (md - mn) := by nlinarith
  have u3 : c2 * (mx - md) ≤ (10149/10000) * (mx - md) := by nlinarith
  have l1 : (9992/10000) * mn ≤ w * mn := by nlinarith
  have l2 : 0 ≤ c1 * (md - mn) := mul_nonneg hc10 (by linarith)
  have l3 : 0 ≤ c2 * (mx - md) := mul_nonneg hc20 (by linarith)
  constructor <;> nlinarith

/-- Per-bin bounds of rgb_to_spectrum: every bin lies between min-0.01 and
max+0.015 of the RGB components in the unit cube. -/
theorem rgb_to_spectrum_bin_bounds (red green blue : ℚ)
    (hr0 : 0 ≤ red) (hr1 : red ≤ 1) (hg0 : 0 ≤ green) (hg1 : green ≤ 1)
    (hb0 : 0 ≤ blue) (hb1 : blue ≤ 1) (i : Fin 10) :
    min red (min green blue) - 1/100 ≤ rgb_to_spectrum red green blue i ∧
    rgb_to_spectrum red green blue i ≤ max red (max green blue) + 15/1000 := by
  have hminr : min red (min green blue) ≤ red := min_le_left _ _
  have hming : min red (min green blue) ≤ green :=
    le_trans (min_le_right _ _) (min_le_left _ _)
  have hminb : min red (min green blue) ≤ blue :=
    le_trans (min_le_right _ _) (min_le_right _ _)
  have hmaxr : red ≤ max red (max green blue) := le_max_left _ _
  have hmaxg : green ≤ max red (max green blue) :=
    le_trans (le_max_left _ _) (le_max_right _ _)
  have hmaxb : blue ≤ max red (max green blue) :=
    le_trans (le_max_right _ _) (le_max_right _ _)
  obtain ⟨w1, w2⟩ := white_bounds i
  simp only [rgb_to_spectrum]
  by_cases hA : red ≤ green ∧ red ≤ blue
  · rw [if_pos hA]
    by_cases hB : green ≤ blue
    · rw [if_pos hB]
      simp only [specAdd, specScale]
      obtain ⟨c1, c2⟩ := cyan_bounds i
      obtain ⟨b1, b2⟩ := blue_bounds i
      have G := smits_bin_bound (WHITE_SPECTRUM i) (CYAN_SPECTRUM i)
        (BLUE_SPECTRUM i) red green blue w1 w2 c1 c2 b1 b2 hr0 hA.1 hB hb1
      exact ⟨by linarith [G.1], by linarith [G.2]⟩
    · rw [if_neg hB]
      simp only [specAdd, specScale]
      obtain ⟨c1, c2⟩ := cyan_bounds i
      obtain ⟨g1, g2⟩ := green_bounds i
      have G := smits_bin_bound (WHITE_SPECTRUM i) (CYAN_SPECTRUM i)
        (GREEN_SPECTRUM i) red blue green w1 w2 c1 c2 g1 g2 hr0 hA.2
        (le_of_lt (not_le.1 hB)) hg1
      exact ⟨by linarith [G.1], by linarith [G.2]⟩
  · rw [if_neg hA]
    by_cases hC : green ≤ red ∧ green ≤ blue
    · rw [if_pos hC]
      by_cases hD : red ≤ blue
      · rw [if_pos hD]
        simp only [specAdd, specScale]
        obtain ⟨m1, m2⟩ := magenta_bounds i
        obtain ⟨b1, b2⟩ := blue_bounds i
        have G := smits_bin_bound (WHITE_SPECTRUM i) (MAGENTA_SPECTRUM i)
          (BLUE_SPECTRUM i) green red blue w1 w2 m1 m2 b1 b2 hg0 hC.1 hD hb1
        exact ⟨by linarith [G.1], by linarith [G.2]⟩
      · rw [if_neg hD]
        simp only [specAdd, specScale]
        obtain ⟨m1, m2⟩ := magenta_bounds i
        obtain ⟨r1, r2⟩ := red_bounds i
        have G := smits_bin_bound (WHITE_SPECTRUM i) (MAGENTA_SPECTRUM i)
          (RED_SPECTRUM i) green blue red w1 w2 m1 m2 r1 r2 hg0 hC.2
          (le_of_lt (not_le.1 hD)) hr1
        exact ⟨by linarith [G.1], by linarith [G.2]⟩
    · rw [if_neg hC]
      by_cases hE : red ≤ green
      · rw [if_pos hE]
        have hbr : blue < red := by
          by_contra hc; push_neg at hc; exact hA ⟨hE, hc⟩
        simp only [specAdd, specScale]
        obtain ⟨y1, y2⟩ := yellow_bounds i
        obtain ⟨g1, g2⟩ := green_bounds i
        have G := smits_bin_bound (WHITE_SPECTRUM i) (YELLOW_SPECTRUM i)
          (GREEN_SPECTRUM i) blue red green w1 w2 y1 y2 g1 g2 hb0
          (le_of_lt hbr) hE hg1
        exact ⟨by linarith [G.1], by linarith [G.2]⟩
      · rw [if_neg hE]
        have hgr : green ≤ red := le_of_lt (not_le.1 hE)
        have hbg : blue < green := by
          by_contra hc; push_neg at hc; exact hC ⟨hgr, hc⟩
        simp only [specAdd, specScale]
        obtain ⟨y1, y2⟩ := yellow_bounds i
        obtain ⟨r1, r2⟩ := red_bounds i
        have G := smits_bin_bound (WHITE_SPECTRUM i) (YELLOW_SPECTRUM i)
          (RED_SPECTRUM i) blue green red w1 w2 y1 y2 r1 r2 hb0
          (le_of_lt hbg) hgr hr1
        exact ⟨by linarith [G.1], by linarith [G.2]⟩

/-- C3 amended: for RGB in the unit cube and wavelengths in [380, 780], every
reflect value lies between min(r,g,b) - 0.01 and max(r,g,b) + 0.015.  The
original upper slack 0.01 is impossible: see rgb_to_spectrum_red_violation. -/
theorem rgb_to_spectrum_reflect_bounds (red green blue wl : ℚ)
    (hr0 : 0 ≤ red) (hr1 : red ≤ 1) (hg0 : 0 ≤ green) (hg1 : green ≤ 1)
    (hb0 : 0 ≤ blue) (hb1 : blue ≤ 1) (hwl0 : 380 ≤ wl) (hwl1 : wl ≤ 780) :
    min red (min green blue) - 1/100 ≤ (rgb_to_spectrum red green blue).reflect wl ∧
    (rgb_to_spectrum red green blue).reflect wl ≤ max red (max green blue) + 15/1000 := by
  have key := rgb_to_spectrum_bin_bounds red green blue hr0 hr1 hg0 hg1 hb0 hb1
  simp only [Spectrum10.reflect]
  split_ifs <;> first | exact key _ | omega

/-- Decomposition of pure red is exactly the red reference spectrum. -/
theorem rgb_pure_red : rgb_to_spectrum 1 0 0 = RED_SPECTRUM := by
  funext i
  simp only [rgb_to_spectrum]
  rw [if_neg (by norm_num), if_pos (by norm_num), if_neg (by norm_num)]
  simp only [specAdd, specScale]
  ring

/-- Value of the red decomposition at the 618-652 nm bin. -/
theorem rgb_red_reflect_620 : (rgb_to_spectrum 1 0 0).reflect 620 = 10149/10000 := by
  rw [rgb_pure_red]
  have hfloor : ratTrunc (((620:ℚ) - 380) / 34) = 7 := by
    unfold ratTrunc
    rw [if_neg (by norm_num), Int.floor_eq_iff]
    · norm_num
  simp only [Spectrum10.reflect, hfloor]
  norm_num
  have h7 : ∀ (h : Int.toNat 7 < 10), (⟨Int.toNat 7, h⟩ : Fin 10) = ⟨7, by omega⟩ :=
    fun _ => rfl
  rw [h7]
  norm_num [RED_SPECTRUM]

/-- C3 counterexample: pure red violates the claimed upper bound
max(r,g,b) + 0.01 at 620 nm, where the decomposition reaches 1.0149. -/
theorem rgb_to_spectrum_red_violation :
    ¬ ((rgb_to_spectrum 1 0 0).reflect 620 ≤ max 1 (max 0 0) + 1/100) := by
  rw [rgb_red_reflect_620]
  norm_num

/-- C3 witness: mid grey at 500 nm satisfies the amended bounds. -/
theorem rgb_to_spectrum_reflect_bounds_witness :
    (0:ℚ) ≤ 1/2 ∧ (1/2:ℚ) ≤ 1 ∧ (380:ℚ) ≤ 500 ∧ (500:ℚ) ≤ 780 ∧
    (min (1/2) (min (1/2) (1/2)) - 1/100 ≤ (rgb_to_spectrum (1/2) (1/2) (1/2)).reflect 500 ∧
     (rgb_to_spectrum (1/2) (1/2) (1/2)).reflect 500 ≤ max (1/2) (max (1/2) (1/2)) + 15/1000) :=
  ⟨by norm_num, by norm_num, by norm_num, by norm_num,
   rgb_to_spectrum_reflect_bounds (1/2) (1/2) (1/2) 500 (by norm_num) (by norm_num)
     (by norm_num) (by norm_num) (by norm_num) (by norm_num) (by norm_num) (by norm_num)⟩

/-- C8: whenever the Moeller-Trumbore determinant e1 . (d x e2) is not a
normal f32 (zero or sub-normal in exact arithmetic on finite inputs),
Triangle::hit reports a miss. -/
theorem triangle_hit_det_not_normal (tri : Triangle) (r : Ray) (t_min t_max : ℚ)
    (h : ¬ f32IsNormal (Vec3.dot (Vec3.sub tri.vert1 tri.vert0)
        (Vec3.cross r.direction (Vec3.sub tri.vert2 tri.vert0)))) :
    tri.hit r t_min t_max = none := by
  simp only [Triangle.hit]
  rw [if_pos h]

/-- C8 witness: a fully degenerate triangle has determinant 0, which is not
normal, so the hit is a miss. -/
theorem triangle_hit_det_not_normal_witness :
    ¬ f32IsNormal (Vec3.dot (Vec3.sub degenTriangle.vert1 degenTriangle.vert0)
        (Vec3.cross diagRay.direction (Vec3.sub degenTriangle.vert2 degenTriangle.vert0))) ∧
    degenTriangle.hit diagRay (1/10000) 100 = none := by
  have h : ¬ f32IsNormal (Vec3.dot (Vec3.sub degenTriangle.vert1 degenTriangle.vert0)
      (Vec3.cross diagRay.direction (Vec3.sub degenTriangle.vert2 degenTriangle.vert0))) := by
    norm_num [f32IsNormal, F32_MIN_POS_NORMAL, F32_MAX, Vec3.dot, Vec3.cross,
      Vec3.sub, degenTriangle, diagRay, Ray.new]
  exact ⟨h, triangle_hit_det_not_normal degenTriangle diagRay (1/10000) 100 h⟩

/-- C9: Metal::new clamps every fuzz argument into [0, 1]: the stored fuzz is
max 0 (min 1 fuzz), so negative inputs become 0, inputs above 1 become 1,
in-range inputs are kept, and the constructed value is never rejected. -/
theorem metal_new_fuzz_clamped (albedo fuzz : ℚ) :
    (Metal.new albedo fuzz).fuzz = max 0 (min 1 fuzz) ∧
    0 ≤ (Metal.new albedo fuzz).fuzz ∧ (Metal.new albedo fuzz).fuzz ≤ 1 := by
  simp only [Metal.new]
  split_ifs with h1 h2
  · rw [min_eq_right (by linarith : fuzz ≤ 1), max_eq_left (by linarith : fuzz ≤ 0)]
    norm_num
  · rw [min_eq_left (by linarith : (1:ℚ) ≤ fuzz), max_eq_right (by norm_num : (0:ℚ) ≤ 1)]
    norm_num
  · rw [min_eq_right (by linarith : fuzz ≤ 1), max_eq_right (by linarith : (0:ℚ) ≤ fuzz)]
    refine ⟨rfl, by linarith, by linarith⟩

/-- C6: the ImageTexture::value pixel fetch is not always in bounds: the code
clamps the column index with .min(nx as isize) instead of nx - 1, so u = 1 on
a 2-by-2 image yields i = 2 = width and the image indexing panics (none). -/
theorem image_texture_value_out_of_bounds :
    ImageTexture.valueIdx 2 2 1 (1/2) = none := by
  have h1 : ratTrunc ((1:ℚ) * (2:Nat)) = 2 := by
    unfold ratTrunc
    rw [if_neg (by norm_num), Int.floor_eq_iff]
    · norm_num
  have h2 : ratTrunc ((1 - 1/2) * (2:Nat) - 0.001) = 0 := by
    unfold ratTrunc
    rw [if_neg (by norm_num), Int.floor_eq_iff]
    · norm_num
  simp only [ImageTexture.valueIdx, h1, h2]
  norm_num

/-- One unfolding of the reflectance loop as a step of intStep. -/
theorem reflectanceGo_succ {H : Type} (world : Ray → Option H)
    (scatter : Ray → H → ScatterResult) (render_sky : Bool)
    (skyRefl : Ray → ℚ) (fuel : Nat) (r : Ray) (res att : ℚ) :
    reflectanceGo world scatter render_sky skyRefl (fuel + 1) r res att =
      match intStep world scatter render_sky skyRefl (r, res, att) with
      | Sum.inl s2 => reflectanceGo world scatter render_sky skyRefl fuel s2.1 s2.2.1 s2.2.2
      | Sum.inr v => v := by
  simp only [reflectanceGo, intStep]
  rcases hw : world r with _ | rec
  · rfl
  · rcases hr : (scatter r rec).reflection with _ | ⟨att2, ray2⟩ <;> simp [hr]

/-- The fueled loop either returns a value within fuel steps or is the res
accumulator of the state after exactly fuel steps. -/
theorem reflectanceGo_iter {H : Type} (world : Ray → Option H)
    (scatter : Ray → H → ScatterResult) (render_sky : Bool)
    (skyRefl : Ray → ℚ) :
    ∀ (fuel : Nat) (r : Ray) (res att : ℚ),
      (∃ k ≤ fuel, iterSteps world scatter render_sky skyRefl k (r, res, att) =
          Sum.inr (reflectanceGo world scatter render_sky skyRefl fuel r res att)) ∨
      (∃ s, iterSteps world scatter render_sky skyRefl fuel (r, res, att) = Sum.inl s ∧
          reflectanceGo world scatter render_sky skyRefl fuel r res att = s.2.1) := by
  intro fuel
  induction fuel with
  | zero =>
    intro r res att
    exact Or.inr ⟨(r, res, att), rfl, rfl⟩
  | succ n ih =>
    intro r res att
    rw [reflectanceGo_succ]
    cases hstep : intStep world scatter render_sky skyRefl (r, res, att) with
    | inr v =>
      refine Or.inl ⟨1, by omega, ?_⟩
      simp only [iterSteps, hstep]
    | inl s2 =>
      rcases ih s2.1 s2.2.1 s2.2.2 with ⟨k, hk, hit⟩ | ⟨s3, h1, h2⟩
      · refine Or.inl ⟨k + 1, by omega, ?_⟩
        simp only [iterSteps, hstep]
        exact hit
      · refine Or.inr ⟨s3, ?_, h2⟩
        simp only [iterSteps, hstep]
        exact h1

/-- C7: the integrator performs at most 50 bounce iterations: either the walk
terminates within 50 steps and reflectance returns that value, or after
exactly 50 bounces reflectance returns the partial accumulated res of the
surviving state. -/
theorem reflectance_depth_bounded {H : Type} (world : Ray → Option H)
    (scatter : Ray → H → ScatterResult) (render_sky : Bool)
    (skyRefl : Ray → ℚ) (r : Ray) :
    (∃ k ≤ 50, iterSteps world scatter render_sky skyRefl k (r, 0, 1) =
        Sum.inr (reflectance world scatter render_sky skyRefl r)) ∨
    (∃ s, iterSteps world scatter render_sky skyRefl 50 (r, 0, 1) = Sum.inl s ∧
        reflectance world scatter render_sky skyRefl r = s.2.1) :=
  reflectanceGo_iter world scatter render_sky skyRefl 50 r 0 1

/-- C10: BVH::initialize on an empty list fails (the usize capacity expression
items.len()*2 - 1 underflows), and BVH::hit on an already-empty node array
returns None for every ray and interval. -/
theorem bvh_empty_list_behavior :
    BVH.initialize ([] : List Prim) = none ∧
    ∀ (r : Ray) (t_min t_max : ℚ), BVH.hit ⟨[]⟩ r t_min t_max = none := by
  constructor
  · rfl
  · intro r t_min t_max; rfl

/-- C5 counterexample: on the empty list initialize panics (modeled none)
instead of producing a node array, so the node-count claim fails at N = 0. -/
theorem initialize_empty_fails : BVH.initialize ([] : List Prim) = none := by
  unfold BVH.initialize usizeSub
  norm_num

/-- Flatten length equals the declared size. -/
theorem flatten_length (t : PTree) : t.flatten.length = t.size := by
  induction t with
  | tip p => rfl
  | bin l r ihl ihr =>
    simp only [PTree.flatten, PTree.size, List.length_cons, List.length_append,
      ihl, ihr]
    omega

/-- Every subtree holds at least one primitive. -/
theorem prims_length_pos (t : PTree) : 1 ≤ t.prims.length := by
  induction t with
  | tip p => simp [PTree.prims]
  | bin l r ihl ihr => simp only [PTree.prims, List.length_append]; omega

/-- Node count of a subtree on n primitives is 2n - 1. -/
theorem size_eq_two_mul_sub_one (t : PTree) : t.size = 2 * t.prims.length - 1 := by
  induction t with
  | tip p => rfl
  | bin l r ihl ihr =>
    have hl := prims_length_pos l
    have hr := prims_length_pos r
    simp only [PTree.size, PTree.prims, List.length_append, ihl, ihr]
    omega

/-- The axis-choice-and-partition step permutes the slice. -/
theorem sortByWidestAxis_perm (items : List (Vec3 × Prim)) :
    (sortByWidestAxis items).Perm items := by
  unfold sortByWidestAxis
  cases chooseAxis items <;>
    (simp only [selectByKey]; exact List.perm_insertionSort _ _)

/-- The recursive builder, run with enough fuel on a nonempty slice, produces
the preorder encoding of a tree whose primitives are a permutation of the
slice payloads. -/
theorem buildGo_spec : ∀ (fuel : Nat) (pairs : List (Vec3 × Prim)),
    pairs ≠ [] → pairs.length ≤ fuel →
    ∃ t : PTree, buildGo fuel pairs = (t.bboxOf, t.size, t.flatten) ∧
      t.prims.Perm (pairs.map Prod.snd) := by
  intro fuel
  induction fuel with
  | zero =>
    intro pairs hne hlen
    rcases pairs with _ | ⟨x, xs⟩
    · exact absurd rfl hne
    · simp at hlen
  | succ f ih =>
    intro pairs hne hlen
    rcases pairs with _ | ⟨x, _ | ⟨y, rest⟩⟩
    · exact absurd rfl hne
    · exact ⟨PTree.tip x.2, rfl, by simp [PTree.prims]⟩
    · have hslen : (sortByWidestAxis (x :: y :: rest)).length =
          (x :: y :: rest).length := (sortByWidestAxis_perm _).length_eq
      have hlen2 : 2 ≤ (x :: y :: rest).length := by simp
      have hk1 : 1 ≤ (x :: y :: rest).length / 2 := by omega
      have hk2 : (x :: y :: rest).length / 2 < (x :: y :: rest).length := by omega
      have htake : ((sortByWidestAxis (x :: y :: rest)).take
          ((x :: y :: rest).length / 2)).length = (x :: y :: rest).length / 2 := by
        rw [List.length_take]; omega
      have hdrop : ((sortByWidestAxis (x :: y :: rest)).drop
          ((x :: y :: rest).length / 2)).length =
          (x :: y :: rest).length - (x :: y :: rest).length / 2 := by
        rw [List.length_drop]; omega
      obtain ⟨tl, htl, hpl⟩ := ih
        ((sortByWidestAxis (x :: y :: rest)).take ((x :: y :: rest).length / 2))
        (by intro hnil; rw [hnil] at htake; simp at htake; omega)
        (by rw [htake]; omega)
      obtain ⟨tr, htr, hpr⟩ := ih
        ((sortByWidestAxis (x :: y :: rest)).drop ((x :: y :: rest).length / 2))
        (by intro hnil; rw [hnil] at hdrop; simp at hdrop; omega)
        (by rw [hdrop]; omega)
      refine ⟨PTree.bin tl tr, ?_, ?_⟩
      · simp only [buildGo]
        rw [htl, htr]
        rfl
      · have h5 := hpl.append hpr
        rw [← List.map_append, List.take_append_drop] at h5
        exact h5.trans ((sortByWidestAxis_perm _).map Prod.snd)

/-- C5 amended: for every nonempty list of N primitives, BVH::initialize
succeeds and the node array has length exactly 2N - 1.  (On the empty list
construction fails instead.) -/
theorem bvh_node_count (ps : List Prim) (h : ps ≠ []) :
    ∃ bvh, BVH.initialize ps = some bvh ∧
      bvh.nodes.length = 2 * ps.length - 1 := by
  have hlen : 1 ≤ ps.length := List.length_pos.2 h
  have hsub : usizeSub (ps.length * 2) 1 = some (ps.length * 2 - 1) := by
    unfold usizeSub
    rw [if_pos (by omega)]
  obtain ⟨t, ht, hperm⟩ := buildGo_spec (ps.map fun p => (p.centroid, p)).length
    (ps.map fun p => (p.centroid, p)) (by simpa using h) (le_refl _)
  refine ⟨⟨t.flatten⟩, ?_, ?_⟩
  · simp only [ BVH.initialize, hsub]
    rw [ht]
  · have hp : t.prims.length = ps.length := by
      have := hperm.length_eq
      simpa using this
    simp only [flatten_length, size_eq_two_mul_sub_one, hp]

/-- C5 witness: two primitives yield a three-node array. -/
theorem bvh_node_count_witness :
    ([witnessPrimA, witnessPrimB] : List Prim) ≠ [] ∧
    ∃ bvh, BVH.initialize [witnessPrimA, witnessPrimB] = some bvh ∧
      bvh.nodes.length = 2 * ([witnessPrimA, witnessPrimB] : List Prim).length - 1 :=
  ⟨by simp, bvh_node_count [witnessPrimA, witnessPrimB] (by simp)⟩

/-- One-dimensional slab bound: a parameter whose coordinate lies between the
slab planes lies between the near and far plane parameters. -/
theorem slab_mem_1d (lo hi o d t : ℚ) (hd : d ≠ 0)
    (h1 : lo ≤ o + d * t) (h2 : o + d * t ≤ hi) :
    ((if d < 0 then hi else lo) - o) * d⁻¹ ≤ t ∧
    t ≤ ((if ¬ d < 0 then hi else lo) - o) * d⁻¹ := by
  rcases lt_or_gt_of_ne hd with hneg | hpos
  · rw [if_pos hneg, if_neg (not_not_intro hneg)]
    constructor
    · rw [← div_eq_mul_inv, div_le_iff_of_neg hneg]; linarith
    · rw [← div_eq_mul_inv, le_div_iff_of_neg hneg]; linarith
  · have hnlt : ¬ d < 0 := by linarith
    rw [if_neg hnlt, if_pos hnlt]
    constructor
    · rw [← div_eq_mul_inv, div_le_iff₀ hpos]; linarith
    · rw [← div_eq_mul_inv, le_div_iff₀ hpos]; linarith

/-- Points of the ray inside a box lie between the x slab parameters. -/
theorem slab_mem_x (b : AABB) (r : Ray) (hw : r.wf) (t : ℚ)
    (hp : pointInBox (r.point_at_parameter t) b) :
    nearX b r ≤ t ∧ t ≤ farX b r := by
  obtain ⟨hdx, _, _, hinv, hsign⟩ := hw
  obtain ⟨p1, p2, _, _, _, _⟩ := hp
  simp only [Ray.point_at_parameter] at p1 p2
  unfold nearX farX AABB.bnd
  rw [hinv, hsign]
  dsimp only
  simp only [Bool.not_eq_true', decide_eq_true_eq, decide_eq_false_iff_not,
    apply_ite Vec3.x]
  exact slab_mem_1d b.lo.x b.hi.x r.origin.x r.direction.x t hdx p1 p2

/-- Points of the ray inside a box lie between the y slab parameters. -/
theorem slab_mem_y (b : AABB) (r : Ray) (hw : r.wf) (t : ℚ)
    (hp : pointInBox (r.point_at_parameter t) b) :
    nearY b r ≤ t ∧ t ≤ farY b r := by
  obtain ⟨_, hdy, _, hinv, hsign⟩ := hw
  obtain ⟨_, _, p3, p4, _, _⟩ := hp
  simp only [Ray.point_at_parameter] at p3 p4
  unfold nearY farY AABB.bnd
  rw [hinv, hsign]
  dsimp only
  simp only [Bool.not_eq_true', decide_eq_true_eq, decide_eq_false_iff_not,
    apply_ite Vec3.y]
  exact slab_mem_1d b.lo.y b.hi.y r.origin.y r.direction.y t hdy p3 p4

/-- Points of the ray inside a box lie between the z slab parameters. -/
theorem slab_mem_z (b : AABB) (r : Ray) (hw : r.wf) (t : ℚ)
    (hp : pointInBox (r.point_at_parameter t) b) :
    nearZ b r ≤ t ∧ t ≤ farZ b r := by
  obtain ⟨_, _, hdz, hinv, hsign⟩ := hw
  obtain ⟨_, _, _, _, p5, p6⟩ := hp
  simp only [Ray.point_at_parameter] at p5 p6
  unfold nearZ farZ AABB.bnd
  rw [hinv, hsign]
  dsimp only
  simp only [Bool.not_eq_true', decide_eq_true_eq, decide_eq_false_iff_not,
    apply_ite Vec3.z]
  exact slab_mem_1d b.lo.z b.hi.z r.origin.z r.direction.z t hdz p5 p6

/-- Soundness of the slab test: a box containing a ray point at a parameter
inside the query interval is reported hit, with an entry parameter at most and
an exit parameter at least that parameter. -/
theorem intersects_of_pointIn (b : AABB) (r : Ray) (hw : r.wf) (t t0 t1 : ℚ)
    (hp : pointInBox (r.point_at_parameter t) b) (h0 : t0 < t) (h1 : t < t1) :
    ∃ v : ℚ × ℚ, b.intersects r t0 t1 = some v ∧ v.1 ≤ t ∧ t ≤ v.2 := by
  obtain ⟨hx1, hx2⟩ := slab_mem_x b r hw t hp
  obtain ⟨hy1, hy2⟩ := slab_mem_y b r hw t hp
  obtain ⟨hz1, hz2⟩ := slab_mem_z b r hw t hp
  have hmax : max (max (nearX b r) (nearY b r)) (nearZ b r) ≤ t :=
    max_le (max_le hx1 hy1) hz1
  have hmin : t ≤ min (min (farX b r) (farY b r)) (farZ b r) :=
    le_min (le_min hx2 hy2) hz2
  rw [intersects_eq]
  rw [if_neg, if_neg, if_pos]
  · exact ⟨_, rfl, hmax, hmin⟩
  · exact ⟨by linarith, by linarith⟩
  · push_neg
    exact ⟨le_trans (max_le hx1 hy1) hz2, le_trans hz1 (le_min hx2 hy2)⟩
  · push_neg
    exact ⟨by linarith, by linarith⟩

/-- The entry parameter reported by the slab test lower-bounds the parameter
of every ray point inside the box. -/
theorem intersects_fst_le (b : AABB) (r : Ray) (hw : r.wf) (t t0 t1 : ℚ)
    (v : ℚ × ℚ) (hv : b.intersects r t0 t1 = some v)
    (hp : pointInBox (r.point_at_parameter t) b) : v.1 ≤ t := by
  obtain ⟨hx1, _⟩ := slab_mem_x b r hw t hp
  obtain ⟨hy1, _⟩ := slab_mem_y b r hw t hp
  obtain ⟨hz1, _⟩ := slab_mem_z b r hw t hp
  rw [intersects_eq] at hv
  split_ifs at hv
  rw [Option.some.injEq] at hv
  subst hv
  exact max_le (max_le hx1 hy1) hz1

/-- A point of one box is in the merge with any second box. -/
theorem pointInBox_merge_left (p : Vec3) (a b : AABB) (h : pointInBox p a) :
    pointInBox p (a.merge b) := by
  obtain ⟨h1, h2, h3, h4, h5, h6⟩ := h
  unfold AABB.merge pointInBox
  dsimp only
  refine ⟨?_, ?_, ?_, ?_, ?_, ?_⟩ <;> split_ifs <;> linarith

/-- A point of one box is in the merge with any first box. -/
theorem pointInBox_merge_right (p : Vec3) (a b : AABB) (h : pointInBox p b) :
    pointInBox p (a.merge b) := by
  obtain ⟨h1, h2, h3, h4, h5, h6⟩ := h
  unfold AABB.merge pointInBox
  dsimp only
  refine ⟨?_, ?_, ?_, ?_, ?_, ?_⟩ <;> split_ifs <;> linarith

/-- A point inside the box of a primitive of a subtree is inside the subtree's
bounding box. -/
theorem pointInBox_of_mem_prims (t : PTree) (p : Prim) (q : Vec3)
    (hp : p ∈ t.prims) (hq : pointInBox q p.bbox) : pointInBox q t.bboxOf := by
  induction t with
  | tip p2 =>
    simp only [PTree.prims, List.mem_singleton] at hp
    subst hp
    exact hq
  | bin l r ihl ihr =>
    simp only [PTree.prims, List.mem_append] at hp
    rcases hp with hp | hp
    · exact pointInBox_merge_left _ _ _ (ihl hp)
    · exact pointInBox_merge_right _ _ _ (ihr hp)

/-- A none result of selectMinHit means no candidate is in the interval. -/
theorem selectMinHit_none : ∀ (cands : List HitRecord) (t0 t1 : ℚ),
    selectMinHit cands t0 t1 = none → ∀ c ∈ cands, ¬ candIn t0 t1 c := by
  intro cands
  induction cands with
  | nil => intro t0 t1 _ c hc; simp at hc
  | cons a l ih =>
    intro t0 t1 h c hc
    cases hrec : selectMinHit l t0 t1 with
    | none =>
      simp only [selectMinHit, hrec] at h
      split_ifs at h with hcond
      rcases List.mem_cons.1 hc with rfl | hc2
      · exact hcond
      · exact ih t0 t1 hrec c hc2
    | some b =>
      simp only [selectMinHit, hrec] at h
      split_ifs at h

/-- A some result of selectMinHit is a member candidate inside the interval of
minimal parameter. -/
theorem selectMinHit_some : ∀ (cands : List HitRecord) (t0 t1 : ℚ)
    (hr : HitRecord), selectMinHit cands t0 t1 = some hr →
    hr ∈ cands ∧ candIn t0 t1 hr ∧
      ∀ c ∈ cands, candIn t0 t1 c → hr.t ≤ c.t := by
  intro cands
  induction cands with
  | nil => intro t0 t1 hr h; simp [selectMinHit] at h
  | cons a l ih =>
    intro t0 t1 hr h
    cases hrec : selectMinHit l t0 t1 with
    | none =>
      have hnone := selectMinHit_none l t0 t1 hrec
      simp only [selectMinHit, hrec] at h
      split_ifs at h with hcond
      rw [Option.some.injEq] at h
      subst h
      refine ⟨List.mem_cons_self _ _, hcond, ?_⟩
      intro c hc hcand
      rcases List.mem_cons.1 hc with rfl | hc2
      · exact le_refl _
      · exact absurd hcand (hnone c hc2)
    | some b =>
      obtain ⟨hbmem, hbcand, hbmin⟩ := ih t0 t1 b hrec
      simp only [selectMinHit, hrec] at h
      split_ifs at h with hcond
      · rw [Option.some.injEq] at h
        subst h
        refine ⟨List.mem_cons_self _ _, ⟨hcond.1, hcond.2.1⟩, ?_⟩
        intro c hc hcand
        rcases List.mem_cons.1 hc with rfl | hc2
        · exact le_refl _
        · exact le_trans (le_of_lt hcond.2.2) (hbmin c hc2 hcand)
      · rw [Option.some.injEq] at h
        subst h
        refine ⟨List.mem_cons_of_mem _ hbmem, hbcand, ?_⟩
        intro c hc hcand
        rcases List.mem_cons.1 hc with rfl | hc2
        · by_contra hlt
          push_neg at hlt
          exact hcond ⟨hcand.1, hcand.2, hlt⟩
        · exact hbmin c hc2 hcand

/-- HitSpec transports along permutations of the primitive list. -/
theorem HitSpec_perm {ps ps' : List Prim} (hperm : ps.Perm ps') (t0 t1 : ℚ)
    (res : Option HitRecord) (h : HitSpec ps t0 t1 res) :
    HitSpec ps' t0 t1 res := by
  cases res with
  | none => exact fun p hp c hc => h p (hperm.mem_iff.2 hp) c hc
  | some hr =>
    obtain ⟨hcand, ⟨p, hp, hmem⟩, hmin⟩ := h
    exact ⟨hcand, ⟨p, hperm.mem_iff.1 hp, hmem⟩,
      fun p2 hp2 c hc hcand2 => hmin p2 (hperm.mem_iff.2 hp2) c hc hcand2⟩

/-- Two results satisfying HitSpec agree on the hit parameter. -/
theorem HitSpec_unique {ps : List Prim} {t0 t1 : ℚ} {a b : Option HitRecord}
    (ha : HitSpec ps t0 t1 a) (hb : HitSpec ps t0 t1 b) :
    Option.map HitRecord.t a = Option.map HitRecord.t b := by
  cases a with
  | none =>
    cases b with
    | none => rfl
    | some hbr =>
      obtain ⟨hcand, ⟨p, hp, hmem⟩, _⟩ := hb
      exact absurd hcand (ha p hp hbr hmem)
  | some har =>
    cases b with
    | none =>
      obtain ⟨hcand, ⟨p, hp, hmem⟩, _⟩ := ha
      exact absurd hcand (hb p hp har hmem)
    | some hbr =>
      obtain ⟨hca, ⟨pa, hpa, hma⟩, hmina⟩ := ha
      obtain ⟨hcb, ⟨pb, hpb, hmb⟩, hminb⟩ := hb
      have h1 : har.t ≤ hbr.t := hmina pb hpb hbr hmb hcb
      have h2 : hbr.t ≤ har.t := hminb pa hpa har hma hca
      simp [le_antisymm h1 h2]

/-- HitSpec extends over an appended list with no candidates in the interval. -/
theorem HitSpec_append_right_none {as bs : List Prim} {t0 t1 : ℚ}
    {res : Option HitRecord} (ha : HitSpec as t0 t1 res)
    (hb : NoCand bs t0 t1) : HitSpec (as ++ bs) t0 t1 res := by
  cases res with
  | none =>
    intro p hp c hc
    rcases List.mem_append.1 hp with hp | hp
    · exact ha p hp c hc
    · exact hb p hp c hc
  | some hr =>
    obtain ⟨hcand, ⟨p, hp, hmem⟩, hmin⟩ := ha
    refine ⟨hcand, ⟨p, List.mem_append_left _ hp, hmem⟩, ?_⟩
    intro p2 hp2 c hc hcand2
    rcases List.mem_append.1 hp2 with hp2 | hp2
    · exact hmin p2 hp2 c hc hcand2
    · exact absurd hcand2 (hb p2 hp2 c hc)

/-- HitSpec extends over a prepended list with no candidates in the interval. -/
theorem HitSpec_append_left_none {as bs : List Prim} {t0 t1 : ℚ}
    {res : Option HitRecord} (ha : NoCand as t0 t1)
    (hb : HitSpec bs t0 t1 res) : HitSpec (as ++ bs) t0 t1 res := by
  cases res with
  | none =>
    intro p hp c hc
    rcases List.mem_append.1 hp with hp | hp
    · exact ha p hp c hc
    · exact hb p hp c hc
  | some hr =>
    obtain ⟨hcand, ⟨p, hp, hmem⟩, hmin⟩ := hb
    refine ⟨hcand, ⟨p, List.mem_append_right _ hp, hmem⟩, ?_⟩
    intro p2 hp2 c hc hcand2
    rcases List.mem_append.1 hp2 with hp2 | hp2
    · exact absurd hcand2 (ha p2 hp2 c hc)
    · exact hmin p2 hp2 c hc hcand2

/-- Invariant of the HitableList::hit fold: with a consistent running best and
closest_so_far, the fold returns a closest hit over best and the remaining
primitives, windowed to (t0, closest). -/
theorem hitableListGo_spec : ∀ (l : List Prim) (r : Ray) (t0 : ℚ)
    (best : Option HitRecord) (closest t1 : ℚ),
    (best = none → closest = t1) →
    (∀ h0, best = some h0 → h0.t = closest ∧ candIn t0 t1 h0) →
    closest ≤ t1 →
    (hitableListGo l r t0 best closest = none →
      best = none ∧ NoCand l t0 closest) ∧
    (∀ hr, hitableListGo l r t0 best closest = some hr →
      candIn t0 t1 hr ∧ hr.t ≤ closest ∧
      (best = some hr ∨ ∃ p ∈ l, hr ∈ p.cands) ∧
      (∀ h0, best = some h0 → hr.t ≤ h0.t) ∧
      (∀ p ∈ l, ∀ c ∈ p.cands, candIn t0 closest c → hr.t ≤ c.t)) := by
  intro l
  induction l with
  | nil =>
    intro r t0 best closest t1 hbn hbs hct
    constructor
    · intro hres
      simp only [hitableListGo] at hres
      exact ⟨hres, fun p hp => by simp at hp⟩
    · intro hr hres
      simp only [hitableListGo] at hres
      obtain ⟨he, hcand⟩ := hbs hr hres
      refine ⟨hcand, le_of_eq he, Or.inl hres, ?_, ?_⟩
      · intro h0 hh0
        rw [hres, Option.some.injEq] at hh0
        subst hh0
        exact le_refl _
      · intro p2 hp2
        simp at hp2
  | cons p rest ih =>
    intro r t0 best closest t1 hbn hbs hct
    cases hph : p.hit r t0 closest with
    | none =>
      have hnop := selectMinHit_none p.cands t0 closest hph
      have H := ih r t0 best closest t1 hbn hbs hct
      constructor
      · intro hres
        simp only [hitableListGo, hph] at hres
        obtain ⟨h1, h2⟩ := H.1 hres
        refine ⟨h1, ?_⟩
        intro p2 hp2 c hc
        rcases List.mem_cons.1 hp2 with rfl | hp2
        · exact hnop c hc
        · exact h2 p2 hp2 c hc
      · intro hr hres
        simp only [hitableListGo, hph] at hres
        obtain ⟨hcand, hle, hmem, hbestmin, hmin⟩ := H.2 hr hres
        refine ⟨hcand, hle, ?_, hbestmin, ?_⟩
        · rcases hmem with hmem | ⟨p2, hp2, hm⟩
          · exact Or.inl hmem
          · exact Or.inr ⟨p2, List.mem_cons_of_mem _ hp2, hm⟩
        · intro p2 hp2 c hc hcand2
          rcases List.mem_cons.1 hp2 with rfl | hp2
          · exact absurd hcand2 (hnop c hc)
          · exact hmin p2 hp2 c hc hcand2
    | some hp1 =>
      obtain ⟨hpmem, hpcand, hpmin⟩ := selectMinHit_some p.cands t0 closest hp1 hph
      have hlt1 : hp1.t < closest := hpcand.2
      have H := ih r t0 (some hp1) hp1.t t1
        (fun hco => Option.noConfusion hco)
        (fun h0 hh0 => by
          rw [Option.some.injEq] at hh0
          subst hh0
          exact ⟨rfl, hpcand.1, lt_of_lt_of_le hlt1 hct⟩)
        (le_trans (le_of_lt hlt1) hct)
      constructor
      · intro hres
        simp only [hitableListGo, hph] at hres
        obtain ⟨h1, _⟩ := H.1 hres
        exact Option.noConfusion h1
      · intro hr hres
        simp only [hitableListGo, hph] at hres
        obtain ⟨hcand, hle, hmem, hbestmin, hmin⟩ := H.2 hr hres
        have hrle : hr.t ≤ hp1.t := hbestmin hp1 rfl
        refine ⟨hcand, le_trans hrle (le_of_lt hlt1), ?_, ?_, ?_⟩
        · rcases hmem with hmem | ⟨p2, hp2, hm⟩
          · rw [Option.some.injEq] at hmem
            subst hmem
            exact Or.inr ⟨p, List.mem_cons_self _ _, hpmem⟩
          · exact Or.inr ⟨p2, List.mem_cons_of_mem _ hp2, hm⟩
        · intro h0 hh0
          obtain ⟨he0, _⟩ := hbs h0 hh0
          rw [he0]
          exact le_trans hrle (le_of_lt hlt1)
        · intro p2 hp2 c hc hcand2
          rcases List.mem_cons.1 hp2 with rfl | hp2
          · exact le_trans hrle (hpmin c hc hcand2)
          · by_cases hcl : c.t < hp1.t
            · exact hmin p2 hp2 c hc ⟨hcand2.1, hcl⟩
            · push_neg at hcl
              exact le_trans hrle hcl

/-- The linear scan satisfies the closest-hit specification. -/
theorem hitableList_hit_spec (l : List Prim) (r : Ray) (t0 t1 : ℚ) :
    HitSpec l t0 t1 (HitableList.hit l r t0 t1) := by
  unfold HitableList.hit
  have H := hitableListGo_spec l r t0 none t1 t1 (fun _ => rfl)
    (fun h0 hh0 => Option.noConfusion hh0) (le_refl _)
  cases hres : hitableListGo l r t0 none t1 with
  | none => exact (H.1 hres).2
  | some hr =>
    obtain ⟨hcand, _, hmem, _, hmin⟩ := H.2 hr hres
    refine ⟨hcand, ?_, ?_⟩
    · rcases hmem with hmem | hmem
      · exact Option.noConfusion hmem
      · exact hmem
    · intro p hp c hc hcand2
      exact hmin p hp c hc hcand2

/-- Core of the two-sibling traversal order: with correct closest-hit oracles
for both subtrees, a lower bound bfst on every candidate of the second
subtree, and the prune-and-refine cascade of the source, the combined result
is a closest hit over the concatenated primitive lists. -/
theorem combineSpec (ap bp : List Prim) (fA fB : ℚ → ℚ → Option HitRecord)
    (hA : ∀ u v, HitSpec ap u v (fA u v))
    (hB : ∀ u v, HitSpec bp u v (fB u v))
    (t0 t1 bfst : ℚ)
    (hBlow : ∀ p ∈ bp, ∀ c ∈ p.cands, bfst ≤ c.t) :
    HitSpec (ap ++ bp) t0 t1
      (match fA t0 t1 with
       | none => if t1 < bfst then none else fB t0 t1
       | some h1 =>
         if h1.t < bfst then some h1
         else
           match fB t0 h1.t with
           | none => some h1
           | some h2 => some h2) := by
  cases hA1 : fA t0 t1 with
  | none =>
    have hAspec := hA t0 t1
    rw [hA1] at hAspec
    by_cases hprune : t1 < bfst
    · rw [if_pos hprune]
      intro p hp c hc hcand
      rcases List.mem_append.1 hp with hp | hp
      · exact hAspec p hp c hc hcand
      · have hcb := hBlow p hp c hc
        exact absurd hcand.2 (not_lt.2 (by linarith))
    · rw [if_neg hprune]
      exact HitSpec_append_left_none hAspec (hB t0 t1)
  | some h1 =>
    have hAspec := hA t0 t1
    rw [hA1] at hAspec
    obtain ⟨h1cand, h1mem, h1min⟩ := hAspec
    dsimp only
    by_cases hprune : h1.t < bfst
    · rw [if_pos hprune]
      refine ⟨h1cand, ?_, ?_⟩
      · obtain ⟨p, hp, hm⟩ := h1mem
        exact ⟨p, List.mem_append_left _ hp, hm⟩
      · intro p hp c hc hcand
        rcases List.mem_append.1 hp with hp | hp
        · exact h1min p hp c hc hcand
        · have := hBlow p hp c hc
          linarith
    · rw [if_neg hprune]
      cases hB1 : fB t0 h1.t with
      | none =>
        have hBspec := hB t0 h1.t
        rw [hB1] at hBspec
        refine ⟨h1cand, ?_, ?_⟩
        · obtain ⟨p, hp, hm⟩ := h1mem
          exact ⟨p, List.mem_append_left _ hp, hm⟩
        · intro p hp c hc hcand
          rcases List.mem_append.1 hp with hp | hp
          · exact h1min p hp c hc hcand
          · by_contra hlt
            push_neg at hlt
            exact hBspec p hp c hc ⟨hcand.1, hlt⟩
      | some h2 =>
        have hBspec := hB t0 h1.t
        rw [hB1] at hBspec
        obtain ⟨h2cand, h2mem, h2min⟩ := hBspec
        refine ⟨⟨h2cand.1, lt_trans h2cand.2 h1cand.2⟩, ?_, ?_⟩
        · obtain ⟨p, hp, hm⟩ := h2mem
          exact ⟨p, List.mem_append_right _ hp, hm⟩
        · intro p hp c hc hcand
          rcases List.mem_append.1 hp with hp | hp
          · exact le_trans (le_of_lt h2cand.2) (h1min p hp c hc hcand)
          · by_cases hcl : c.t < h1.t
            · exact h2min p hp c hc ⟨hcand.1, hcl⟩
            · push_neg at hcl
              exact le_trans (le_of_lt h2cand.2) hcl

/-- The tree-view traversal computes a closest hit over the subtree's
primitives, given that every candidate lies in its primitive's box. -/
theorem treeHit_spec (r : Ray) (hw : r.wf) :
    ∀ (t : PTree), CandsInBoxes t.prims r →
    ∀ (t0 t1 : ℚ), HitSpec t.prims t0 t1 (treeHit t r t0 t1) := by
  intro t
  induction t with
  | tip p =>
    intro hc t0 t1
    cases hres : selectMinHit p.cands t0 t1 with
    | none =>
      have hn := selectMinHit_none p.cands t0 t1 hres
      simp only [treeHit, Prim.hit, hres]
      intro p2 hp2 c hcm
      simp only [PTree.prims, List.mem_singleton] at hp2
      subst hp2
      exact hn c hcm
    | some hr =>
      obtain ⟨hmem, hcand, hmin⟩ := selectMinHit_some p.cands t0 t1 hr hres
      simp only [treeHit, Prim.hit, hres]
      refine ⟨hcand, ⟨p, by simp [PTree.prims], hmem⟩, ?_⟩
      intro p2 hp2 c hcm hcand2
      simp only [PTree.prims, List.mem_singleton] at hp2
      subst hp2
      exact hmin c hcm hcand2
  | bin lt rt ihl ihr =>
    intro hc t0 t1
    have hcl : CandsInBoxes lt.prims r := fun p hp c hcc =>
      hc p (by simp only [PTree.prims, List.mem_append]; exact Or.inl hp) c hcc
    have hcr : CandsInBoxes rt.prims r := fun p hp c hcc =>
      hc p (by simp only [PTree.prims, List.mem_append]; exact Or.inr hp) c hcc
    have boxL : ∀ p ∈ lt.prims, ∀ c ∈ p.cands,
        pointInBox (r.point_at_parameter c.t) lt.bboxOf :=
      fun p hp c hcc => pointInBox_of_mem_prims lt p _ hp (hcl p hp c hcc)
    have boxR : ∀ p ∈ rt.prims, ∀ c ∈ p.cands,
        pointInBox (r.point_at_parameter c.t) rt.bboxOf :=
      fun p hp c hcc => pointInBox_of_mem_prims rt p _ hp (hcr p hp c hcc)
    have noHitL : ∀ (u v : ℚ), lt.bboxOf.intersects r u v = none →
        NoCand lt.prims u v := by
      intro u v hnone p hp c hcc hcand
      obtain ⟨w, hv, _, _⟩ := intersects_of_pointIn lt.bboxOf r hw c.t u v
        (boxL p hp c hcc) hcand.1 hcand.2
      rw [hnone] at hv
      exact Option.noConfusion hv
    have noHitR : ∀ (u v : ℚ), rt.bboxOf.intersects r u v = none →
        NoCand rt.prims u v := by
      intro u v hnone p hp c hcc hcand
      obtain ⟨w, hv, _, _⟩ := intersects_of_pointIn rt.bboxOf r hw c.t u v
        (boxR p hp c hcc) hcand.1 hcand.2
      rw [hnone] at hv
      exact Option.noConfusion hv
    simp only [treeHit]
    cases hL : lt.bboxOf.intersects r t0 t1 with
    | none =>
      cases hR : rt.bboxOf.intersects r t0 t1 with
      | none =>
        intro p hp c hcc
        rcases List.mem_append.1 hp with hp | hp
        · exact noHitL t0 t1 hL p hp c hcc
        · exact noHitR t0 t1 hR p hp c hcc
      | some rr =>
        exact HitSpec_append_left_none (noHitL t0 t1 hL) (ihr hcr t0 t1)
    | some lr =>
      cases hR : rt.bboxOf.intersects r t0 t1 with
      | none =>
        exact HitSpec_append_right_none (ihl hcl t0 t1) (noHitR t0 t1 hR)
      | some rr =>
        have fstR : ∀ p ∈ rt.prims, ∀ c ∈ p.cands, rr.1 ≤ c.t :=
          fun p hp c hcc => intersects_fst_le rt.bboxOf r hw c.t t0 t1 rr hR
            (boxR p hp c hcc)
        have fstL : ∀ p ∈ lt.prims, ∀ c ∈ p.cands, lr.1 ≤ c.t :=
          fun p hp c hcc => intersects_fst_le lt.bboxOf r hw c.t t0 t1 lr hL
            (boxL p hp c hcc)
        dsimp only
        by_cases hord : lr.1 < rr.1
        · rw [if_pos hord]
          exact combineSpec lt.prims rt.prims (treeHit lt r) (treeHit rt r)
            (ihl hcl) (ihr hcr) t0 t1 rr.1 fstR
        · rw [if_neg hord]
          exact HitSpec_perm List.perm_append_comm t0 t1 _
            (combineSpec rt.prims lt.prims (treeHit rt r) (treeHit lt r)
              (ihr hcr) (ihl hcl) t0 t1 lr.1 fstL)

/-- The first node of a flattened subtree carries that subtree's bounding
box, even with further nodes appended. -/
theorem head_flatten_bbox (t : PTree) (rest : List Node) :
    ((t.flatten ++ rest).headD Node.Empty).bbox = t.bboxOf := by
  cases t <;> simp [PTree.flatten, PTree.bboxOf, Node.bbox]

/-- The flat traversal on a preorder-flattened subtree (with any trailing
nodes) computes exactly the tree-view traversal, given enough fuel. -/
theorem hitGo_flatten : ∀ (t : PTree) (fuel : Nat) (rest : List Node) (r : Ray)
    (t0 t1 : ℚ), t.size ≤ fuel →
    hitGo fuel (t.flatten ++ rest) r t0 t1 = treeHit t r t0 t1 := by
  intro t
  induction t with
  | tip p =>
    intro fuel rest r t0 t1 hf
    cases fuel with
    | zero => simp [PTree.size] at hf
    | succ f => rfl
  | bin lt rt ihl ihr =>
    intro fuel rest r t0 t1 hf
    cases fuel with
    | zero => simp [PTree.size] at hf
    | succ f =>
      have hl : lt.size ≤ f := by simp only [PTree.size] at hf; omega
      have hr : rt.size ≤ f := by simp only [PTree.size] at hf; omega
      have eL : ∀ u v, hitGo f (lt.flatten ++ (rt.flatten ++ rest)) r u v =
          treeHit lt r u v := fun u v => ihl f (rt.flatten ++ rest) r u v hl
      have eR : ∀ u v, hitGo f (rt.flatten ++ rest) r u v =
          treeHit rt r u v := fun u v => ihr f rest r u v hr
      have hflat : (lt.bin rt).flatten ++ rest =
          Node.Bin lt.size (lt.bboxOf.merge rt.bboxOf) ::
            (lt.flatten ++ (rt.flatten ++ rest)) := by
        simp [PTree.flatten, List.append_assoc]
      rw [hflat]
      have hdrop : (lt.flatten ++ (rt.flatten ++ rest)).drop lt.size =
          rt.flatten ++ rest := by
        rw [← flatten_length lt]
        exact List.drop_left _ _
      simp only [hitGo, treeHit, hdrop, head_flatten_bbox lt (rt.flatten ++ rest),
        head_flatten_bbox rt rest]
      cases hL : lt.bboxOf.intersects r t0 t1 with
      | none =>
        cases hR : rt.bboxOf.intersects r t0 t1 with
        | none => rfl
        | some rr => exact eR t0 t1
      | some lr =>
        cases hR : rt.bboxOf.intersects r t0 t1 with
        | none => exact eL t0 t1
        | some rr =>
          dsimp only
          by_cases hord : lr.1 < rr.1
          · simp only [if_pos hord, eL, eR]
          · simp only [if_neg hord, eL, eR]

/-- C1: for every nonempty primitive list, every ray built by Ray::new with
nonzero direction components, and every interval, BVH::hit returns a hit whose
parameter t equals that of the closest hit found by the HitableList::hit
linear scan (and None exactly when the scan finds none), provided each
primitive's intersections lie inside its bounding box. -/
theorem bvh_hit_matches_linear_scan (ps : List Prim) (o d : Vec3)
    (wl t_min t_max : ℚ)
    (hdx : d.x ≠ 0) (hdy : d.y ≠ 0) (hdz : d.z ≠ 0)
    (hcands : CandsInBoxes ps (Ray.new o d wl)) (hne : ps ≠ []) :
    ∃ bvh, BVH.initialize ps = some bvh ∧
      Option.map HitRecord.t (bvh.hit (Ray.new o d wl) t_min t_max) =
      Option.map HitRecord.t
        (HitableList.hit ps (Ray.new o d wl) t_min t_max) := by
  have hwf : (Ray.new o d wl).wf := ⟨hdx, hdy, hdz, rfl, rfl⟩
  have hlen : 1 ≤ ps.length := List.length_pos.2 hne
  have hsub : usizeSub (ps.length * 2) 1 = some (ps.length * 2 - 1) := by
    unfold usizeSub
    rw [if_pos (by omega)]
  obtain ⟨t, ht, hperm⟩ := buildGo_spec (ps.map fun p => (p.centroid, p)).length
    (ps.map fun p => (p.centroid, p)) (by simpa using hne) (le_refl _)
  have hperm2 : t.prims.Perm ps := by
    have : ∀ l : List Prim, (l.map fun p => (p.centroid, p)).map Prod.snd = l := by
      intro l
      induction l with
      | nil => rfl
      | cons a l2 ih => simp only [List.map_cons, ih]
    have : (ps.map fun p => (p.centroid, p)).map Prod.snd = ps := this ps
    rwa [this] at hperm
  refine ⟨⟨t.flatten⟩, ?_, ?_⟩
  · simp only [ BVH.initialize, hsub]
    rw [ht]
  · have hcands2 : CandsInBoxes t.prims (Ray.new o d wl) :=
      fun p hp c hc => hcands p (hperm2.mem_iff.1 hp) c hc
    have hTree := treeHit_spec (Ray.new o d wl) hwf t hcands2 t_min t_max
    have hFlat : BVH.hit ⟨t.flatten⟩ (Ray.new o d wl) t_min t_max =
        treeHit t (Ray.new o d wl) t_min t_max := by
      have h0 := hitGo_flatten t t.size [] (Ray.new o d wl) t_min t_max
        (le_refl _)
      rw [List.append_nil] at h0
      unfold BVH.hit
      rw [flatten_length]
      exact h0
    have hList := hitableList_hit_spec ps (Ray.new o d wl) t_min t_max
    rw [hFlat]
    exact HitSpec_unique (HitSpec_perm hperm2 t_min t_max _ hTree) hList

/-- C1 witness: two disjoint unit boxes on the main diagonal; the BVH reports
the nearer hit at t = 1/2, exactly as the linear scan does. -/
theorem bvh_hit_matches_linear_scan_witness :
    ((⟨1, 1, 1⟩ : Vec3).x ≠ 0 ∧ (⟨1, 1, 1⟩ : Vec3).y ≠ 0 ∧
     (⟨1, 1, 1⟩ : Vec3).z ≠ 0) ∧
    CandsInBoxes [witnessPrimA, witnessPrimB]
      (Ray.new ⟨0, 0, 0⟩ ⟨1, 1, 1⟩ 500) ∧
    ([witnessPrimA, witnessPrimB] : List Prim) ≠ [] ∧
    ∃ bvh, BVH.initialize [witnessPrimA, witnessPrimB] = some bvh ∧
      Option.map HitRecord.t
        (bvh.hit (Ray.new ⟨0, 0, 0⟩ ⟨1, 1, 1⟩ 500) 0 100) =
      Option.map HitRecord.t
        (HitableList.hit [witnessPrimA, witnessPrimB]
          (Ray.new ⟨0, 0, 0⟩ ⟨1, 1, 1⟩ 500) 0 100) := by
  have hc : CandsInBoxes [witnessPrimA, witnessPrimB]
      (Ray.new ⟨0, 0, 0⟩ ⟨1, 1, 1⟩ 500) := by
    intro p hp c hc
    simp only [witnessPrimA, witnessPrimB, List.mem_cons, List.mem_singleton,
      List.not_mem_nil, or_false] at hp
    rcases hp with rfl | rfl <;>
      simp only [List.mem_singleton] at hc <;> subst hc <;>
      simp [pointInBox, Ray.point_at_parameter, Ray.new] <;> norm_num
  exact ⟨⟨by norm_num, by norm_num, by norm_num⟩, hc, by simp,
    bvh_hit_matches_linear_scan [witnessPrimA, witnessPrimB] ⟨0, 0, 0⟩
      ⟨1, 1, 1⟩ 500 0 100 (by norm_num) (by norm_num) (by norm_num) hc
      (by simp)⟩
